import Mathlib

/-!
Verification of the numerical core of the graph-based nonlinear least-squares
optimizer in `src/Ch8/src/backend/problem.cc` (class `myslam::backend::Problem`).

Matrices and vectors are shallowly embedded as total functions `ℕ → ℕ → ℚ` and
`ℕ → ℚ` with explicit summation ranges; external numeric routines (Eigen's
`ldlt`, block `inverse`, `SelfAdjointEigenSolver`, square roots) enter as
oracle arguments characterized by hypotheses.  Control flow (the LM and
Dog-Leg outer loops) is embedded with explicit fuel and an oracle describing
the outcome of each inner try (the external edge residual evaluations).
-/

namespace Problem

/-- Vectors over rationals, total functions with an explicit range when summed. -/
def Vec : Type := ℕ → ℚ

/-- Matrices over rationals, total functions with explicit ranges when summed. -/
def Mat : Type := ℕ → ℕ → ℚ

/-- Dot product over the first `n` coordinates. -/
def dotR (n : ℕ) (u v : Vec) : ℚ := ∑ i ∈ Finset.range n, u i * v i

/-- Squared Euclidean norm (`Eigen squaredNorm`) over the first `n` coordinates. -/
def sqNorm (n : ℕ) (u : Vec) : ℚ := dotR n u u

/-- Matrix-vector product with inner dimension `n`. -/
def matVecR (n : ℕ) (M : Mat) (v : Vec) : Vec := fun i => ∑ j ∈ Finset.range n, M i j * v j

/-- Matrix-matrix product with inner dimension `n`. -/
def matMulR (n : ℕ) (A B : Mat) : Mat := fun i j => ∑ k ∈ Finset.range n, A i k * B k j

/-- Matrix transpose. -/
def transposeM (M : Mat) : Mat := fun i j => M j i

/-- Scalar multiple of a vector. -/
def smulV (c : ℚ) (v : Vec) : Vec := fun i => c * v i

/-- Pointwise difference of vectors. -/
def subV (u v : Vec) : Vec := fun i => u i - v i

/-- Symmetry of a matrix (on all of ℕ; embedded matrices are zero outside
their active window, so this matches Eigen symmetry of the stored block). -/
def SymmM (M : Mat) : Prop := ∀ r c, M r c = M c r

end Problem

namespace Problem

/-! ### C4 : `Problem::IsGoodStepInLM` (problem.cc lines 1001-1036)

The gain-ratio acceptance test and Nielsen lambda update.  `chi_before` is the
member `currentChi_`, `chi_after` is `tempChi` recomputed from the external
edges after `UpdateStates`; we take it as an input together with its
`isfinite` status (rationals have no infinities, so finiteness of the
floating-point value is an explicit boolean input). -/

/-- Result of one `IsGoodStepInLM` call: the returned boolean and the updated
`currentLambda_`, `ni_`, `currentChi_` members. -/
structure LMStepResult where
  accepted : Bool
  lambdaOut : ℚ
  niOut : ℚ
  chiOut : ℚ
deriving Repr, DecidableEq

/-- `scale = 0.5 * delta_x_^T * (currentLambda_ * delta_x_ + b_) + 1e-6`
(problem.cc lines 1003-1006). -/
def lmScale (n : ℕ) (deltaX b : Vec) (lam : ℚ) : ℚ :=
  1/2 * dotR n deltaX (fun i => lam * deltaX i + b i) + 1e-6

/-- The gain ratio `rho = (currentChi_ - tempChi) / scale` (problem.cc line 1020). -/
def lmRho (n : ℕ) (deltaX b : Vec) (lam chiBefore chiAfter : ℚ) : ℚ :=
  (chiBefore - chiAfter) / lmScale n deltaX b lam

/-- `Problem::IsGoodStepInLM` (problem.cc lines 1001-1036): accept iff
`rho > 0 && isfinite(tempChi)`; on accept `alpha = 1 - (2 rho - 1)^3`,
`alpha = min(alpha, 2/3)`, `scaleFactor = max(1/3, alpha)`,
`currentLambda_ *= scaleFactor`, `ni_ = 2`, `currentChi_ = tempChi`;
on reject `currentLambda_ *= ni_`, `ni_ *= 2`. -/
def isGoodStepInLM (n : ℕ) (deltaX b : Vec) (lam ni chiBefore chiAfter : ℚ)
    (finiteAfter : Bool) : LMStepResult :=
  let rho := lmRho n deltaX b lam chiBefore chiAfter
  if rho > 0 ∧ finiteAfter then
    let alpha := 1 - (2 * rho - 1) ^ 3
    let alpha2 := min alpha (2/3)
    let scaleFactor := max (1/3) alpha2
    ⟨true, lam * scaleFactor, 2, chiAfter⟩
  else
    ⟨false, lam * ni, ni * 2, chiBefore⟩

/-- Claim C4: the LM step-acceptance rule.  A step is accepted iff `rho > 0`
and `chi_after` is finite; on acceptance `lambda` is multiplied by
`max(1/3, min(1 - (2*rho - 1)^3, 2/3))` and `nu` is reset to 2; on rejection
`lambda` is multiplied by `nu` and `nu` is doubled.  For an accepted step with
`rho = 0.9` the lambda multiplier equals `0.488`. -/
theorem C4_lm_acceptance_rule (n : ℕ) (deltaX b : Vec)
    (lam ni chiBefore chiAfter : ℚ) (finiteAfter : Bool) :
    ((isGoodStepInLM n deltaX b lam ni chiBefore chiAfter finiteAfter).accepted = true ↔
        (lmRho n deltaX b lam chiBefore chiAfter > 0 ∧ finiteAfter = true)) ∧
    ((isGoodStepInLM n deltaX b lam ni chiBefore chiAfter finiteAfter).accepted = true →
        (isGoodStepInLM n deltaX b lam ni chiBefore chiAfter finiteAfter).lambdaOut =
          lam * max (1/3)
            (min (1 - (2 * lmRho n deltaX b lam chiBefore chiAfter - 1) ^ 3) (2/3)) ∧
        (isGoodStepInLM n deltaX b lam ni chiBefore chiAfter finiteAfter).niOut = 2) ∧
    ((isGoodStepInLM n deltaX b lam ni chiBefore chiAfter finiteAfter).accepted = false →
        (isGoodStepInLM n deltaX b lam ni chiBefore chiAfter finiteAfter).lambdaOut = lam * ni ∧
        (isGoodStepInLM n deltaX b lam ni chiBefore chiAfter finiteAfter).niOut = ni * 2) ∧
    (lmRho n deltaX b lam chiBefore chiAfter = 9/10 →
        max (1/3)
          (min (1 - (2 * lmRho n deltaX b lam chiBefore chiAfter - 1) ^ 3) (2/3)) =
          488/1000) := by
  by_cases h : (lmRho n deltaX b lam chiBefore chiAfter > 0 ∧ finiteAfter = true)
  · simp only [isGoodStepInLM, if_pos h]
    refine ⟨by simpa using h, by simp, by simp, ?_⟩
    intro h9; rw [h9]; norm_num
  · simp only [isGoodStepInLM, if_neg h]
    refine ⟨by simpa using h, by simp, by simp, ?_⟩
    intro h9; rw [h9]; norm_num

/-- Witness for C4: with `delta_x = b = 0` (so `scale = 1e-6`),
`chi_before = 0.9e-6`, `chi_after = 0`, `lambda = 1000`, the gain ratio is
exactly `0.9`, the step is accepted and `lambda` becomes `1000 * 0.488 = 488`. -/
theorem C4_lm_acceptance_rule_witness :
    lmRho 0 (fun _ => 0) (fun _ => 0) 1000 (9/10 * (1e-6)) 0 = 9/10 ∧
    (isGoodStepInLM 0 (fun _ => 0) (fun _ => 0) 1000 2 (9/10 * (1e-6)) 0 true).accepted
      = true ∧
    (isGoodStepInLM 0 (fun _ => 0) (fun _ => 0) 1000 2 (9/10 * (1e-6)) 0 true).lambdaOut
      = 488 := by
  have h := C4_lm_acceptance_rule 0 (fun _ => 0) (fun _ => 0) 1000 2 (9/10 * (1e-6)) 0 true
  have h9 : lmRho 0 (fun _ => 0) (fun _ => 0) 1000 (9/10 * (1e-6)) 0 = 9/10 := by
    unfold lmRho lmScale dotR
    norm_num
  have hacc : (isGoodStepInLM 0 (fun _ => 0) (fun _ => 0) 1000 2
      (9/10 * (1e-6)) 0 true).accepted = true := by
    rw [h.1]
    exact ⟨by rw [h9]; norm_num, rfl⟩
  refine ⟨h9, hacc, ?_⟩
  rw [(h.2.1 hacc).1, h.2.2.2 h9]
  norm_num

/-! ### The LM and Dog-Leg outer loops (problem.cc lines 194-252 and 254-339)

Both `SolveLM` and `SolveDogLeg` run an outer loop
`while (!stop && iter < iterations)` whose body is an inner retry loop
`while (!oneStepSuccess && false_cnt < 10)`.  One inner try performs the
linear solve, `UpdateStates`, and `IsGoodStepInLM`/`IsGoodStepInDogLeg`; on
success it additionally runs `MakeHessian` (updating `b_`), on failure it
rolls back (leaving `currentChi_` and `b_` unchanged — `IsGoodStep*` writes
`currentChi_ = tempChi` only on acceptance).  The numerical content of a try
depends on the external edge implementations, so it is abstracted as an
oracle giving, for the `k`-th try performed overall, whether the step is
accepted and the resulting `currentChi_` and `b_.norm()` values. -/

/-- Outcome of one inner try: `success` is the `IsGoodStep*` verdict, and on
success `newChi` / `newBNorm` are `currentChi_` and `b_.norm()` after the
acceptance and the `MakeHessian` re-assembly (ignored on failure, where the
rollback leaves both unchanged). -/
structure TryOutcome where
  success : Bool
  newChi : ℚ
  newBNorm : ℚ

/-- Result of the inner retry loop: `currentChi_`, `b_.norm()`, the next
oracle cursor, and whether a step was accepted. -/
structure InnerResult where
  chi : ℚ
  bNorm : ℚ
  cursor : ℕ
  success : Bool

/-- The inner retry loop `while (!oneStepSuccess && false_cnt < 10)`
(problem.cc lines 218-234 and 277-317); `fuel` is the number of tries left
(10 at entry).  A rejected try rolls back, leaving `chi` and `bNorm`
unchanged. -/
def innerTries (orc : ℕ → TryOutcome) : ℕ → ℕ → ℚ → ℚ → InnerResult
  | 0, k, chi, bn => ⟨chi, bn, k, false⟩
  | fuel + 1, k, chi, bn =>
      let o := orc k
      if o.success then ⟨o.newChi, o.newBNorm, k + 1, true⟩
      else innerTries orc fuel (k + 1) chi bn

/-- Result of an outer loop: number of outer iterations executed, and the
`last_chi` / `currentChi_` values at the final stop test. -/
structure LoopResult where
  iters : ℕ
  lastAtStop : ℚ
  chiAtStop : ℚ

/-- The `SolveLM` outer loop (problem.cc lines 273-330): after each outer
iteration the only stopping test is `last_chi_ - currentChi_ < 1e-5`
(line 324); there is no test on `b_.norm()`.  `fuel` is
`iterations - iter`. -/
def lmLoopFull (orc : ℕ → TryOutcome) : ℕ → ℕ → ℚ → ℚ → ℚ → LoopResult
  | 0, _, chi, _, lastChi => ⟨0, lastChi, chi⟩
  | fuel + 1, k, chi, bn, lastChi =>
      let r := innerTries orc 10 k chi bn
      if lastChi - r.chi < 1e-5 then ⟨1, lastChi, r.chi⟩
      else
        let rest := lmLoopFull orc fuel r.cursor r.chi r.bNorm r.chi
        ⟨rest.iters + 1, rest.lastAtStop, rest.chiAtStop⟩

/-- The `SolveDogLeg` outer loop (problem.cc lines 212-243): the stopping test
is `last_chi - currentChi_ < 1e-5 || b_.norm() < 1e-5` (line 237), and the
caller initializes `last_chi = 0` (line 210). -/
def dlLoopFull (orc : ℕ → TryOutcome) : ℕ → ℕ → ℚ → ℚ → ℚ → LoopResult
  | 0, _, chi, _, lastChi => ⟨0, lastChi, chi⟩
  | fuel + 1, k, chi, bn, lastChi =>
      let r := innerTries orc 10 k chi bn
      if lastChi - r.chi < 1e-5 ∨ r.bNorm < 1e-5 then ⟨1, lastChi, r.chi⟩
      else
        let rest := dlLoopFull orc fuel r.cursor r.chi r.bNorm r.chi
        ⟨rest.iters + 1, rest.lastAtStop, rest.chiAtStop⟩

/-- `Problem::SolveLM` (problem.cc lines 254-339): returns `false` on an
empty graph, otherwise runs the loop and returns `true`. -/
def solveLM (orc : ℕ → TryOutcome) (nEdges nVerts iterations : ℕ)
    (chi0 bn0 : ℚ) : Bool :=
  if nEdges = 0 ∨ nVerts = 0 then false
  else
    let _r := lmLoopFull orc iterations 0 chi0 bn0 (1e20)
    true

/-- `Problem::SolveDogLeg` (problem.cc lines 194-252): returns `false` on an
empty graph, otherwise runs the loop and returns `true`. -/
def solveDogLeg (orc : ℕ → TryOutcome) (nEdges nVerts iterations : ℕ)
    (chi0 bn0 : ℚ) : Bool :=
  if nEdges = 0 ∨ nVerts = 0 then false
  else
    let _r := dlLoopFull orc iterations 0 chi0 bn0 0
    true

/-- `Problem::Solve` (problem.cc lines 178-192): dispatch on the solver type,
`0 → SolveLM`, `1 → SolveDogLeg`, anything else returns `false`. -/
def solve (solverType : ℤ) (orc : ℕ → TryOutcome) (nEdges nVerts iterations : ℕ)
    (chi0 bn0 : ℚ) : Bool :=
  if solverType = 0 then solveLM orc nEdges nVerts iterations chi0 bn0
  else if solverType = 1 then solveDogLeg orc nEdges nVerts iterations chi0 bn0
  else false

/-- The result of the inner retry loop does not depend on the incoming
`b_.norm()` value except through the (unread-on-failure) `bNorm` field. -/
theorem innerTries_bNorm_indep (orc : ℕ → TryOutcome) (fuel k : ℕ) (chi bn bn' : ℚ) :
    (innerTries orc fuel k chi bn).chi = (innerTries orc fuel k chi bn').chi ∧
    (innerTries orc fuel k chi bn).cursor = (innerTries orc fuel k chi bn').cursor ∧
    (innerTries orc fuel k chi bn).success = (innerTries orc fuel k chi bn').success ∧
    ((innerTries orc fuel k chi bn).success = true →
      (innerTries orc fuel k chi bn).bNorm = (innerTries orc fuel k chi bn').bNorm) := by
  induction fuel generalizing k with
  | zero => exact ⟨rfl, rfl, rfl, fun h => absurd h (by simp [innerTries])⟩
  | succ fuel ih =>
      by_cases h : (orc k).success
      · simp [innerTries, h]
      · simpa [innerTries, h] using ih (k + 1)

/-- The LM outer loop executes at most `fuel` outer iterations, and an early
stop can only come from the `last_chi_ - currentChi_ < 1e-5` test. -/
theorem lmLoopFull_stop_spec (orc : ℕ → TryOutcome) (fuel : ℕ) :
    ∀ (k : ℕ) (chi bn lastChi : ℚ),
    (lmLoopFull orc fuel k chi bn lastChi).iters ≤ fuel ∧
    ((lmLoopFull orc fuel k chi bn lastChi).iters = fuel ∨
      (lmLoopFull orc fuel k chi bn lastChi).lastAtStop -
        (lmLoopFull orc fuel k chi bn lastChi).chiAtStop < 1e-5) := by
  induction fuel with
  | zero => exact fun k chi bn lastChi => ⟨le_refl 0, Or.inl rfl⟩
  | succ fuel ih =>
      intro k chi bn lastChi
      simp only [lmLoopFull]
      by_cases hstop : lastChi - (innerTries orc 10 k chi bn).chi < 1e-5
      · simp only [if_pos hstop]
        exact ⟨Nat.succ_le_succ (Nat.zero_le fuel), Or.inr hstop⟩
      · simp only [if_neg hstop]
        obtain ⟨hle, hdis⟩ := ih (innerTries orc 10 k chi bn).cursor
          (innerTries orc 10 k chi bn).chi (innerTries orc 10 k chi bn).bNorm
          (innerTries orc 10 k chi bn).chi
        refine ⟨Nat.succ_le_succ hle, ?_⟩
        cases hdis with
        | inl h => exact Or.inl (by rw [h])
        | inr h => exact Or.inr h

/-- The LM outer iteration count is independent of `b_.norm()`: the loop
contains no test on `b_`. -/
theorem lmLoopFull_iters_bNorm_indep (orc : ℕ → TryOutcome) (fuel : ℕ) :
    ∀ (k : ℕ) (chi bn bn' lastChi : ℚ),
    (lmLoopFull orc fuel k chi bn lastChi).iters =
      (lmLoopFull orc fuel k chi bn' lastChi).iters := by
  induction fuel with
  | zero => exact fun _ _ _ _ _ => rfl
  | succ fuel ih =>
      intro k chi bn bn' lastChi
      have hind := innerTries_bNorm_indep orc 10 k chi bn bn'
      simp only [lmLoopFull]
      rw [hind.1, hind.2.1]
      by_cases hstop : lastChi - (innerTries orc 10 k chi bn').chi < 1e-5
      · simp only [if_pos hstop]
      · simp only [if_neg hstop]
        rw [ih (innerTries orc 10 k chi bn').cursor (innerTries orc 10 k chi bn').chi
          (innerTries orc 10 k chi bn).bNorm (innerTries orc 10 k chi bn').bNorm
          (innerTries orc 10 k chi bn').chi]

/-- Claim C2 (amended): the LM outer loop stops only through the
`last_chi_ - currentChi_ < 1e-5` test or the iteration cap; it has no
`‖b‖ < 1e-5` test — its iteration count is independent of `b_.norm()` — and
10 consecutive inner rejections end only the inner retry loop (the outer loop
then proceeds to its chi test). -/
theorem C2_lm_termination (orc : ℕ → TryOutcome) (fuel k : ℕ) (chi bn bn' lastChi : ℚ) :
    ((lmLoopFull orc fuel k chi bn lastChi).iters ≤ fuel ∧
      ((lmLoopFull orc fuel k chi bn lastChi).iters = fuel ∨
        (lmLoopFull orc fuel k chi bn lastChi).lastAtStop -
          (lmLoopFull orc fuel k chi bn lastChi).chiAtStop < 1e-5)) ∧
    (lmLoopFull orc fuel k chi bn lastChi).iters =
      (lmLoopFull orc fuel k chi bn' lastChi).iters :=
  ⟨lmLoopFull_stop_spec orc fuel k chi bn lastChi,
   lmLoopFull_iters_bNorm_indep orc fuel k chi bn bn' lastChi⟩

/-- An oracle whose every try is accepted, decreases `currentChi_` by 1 each
time, and after whose `MakeHessian` re-assembly `b_.norm()` is `0`. -/
def orcC2 : ℕ → TryOutcome := fun k => ⟨true, 999 - (k : ℚ), 0⟩

/-- Claim C2 counterexample: a run of the `SolveLM` loop in which
`b_.norm() = 0 < 1e-5` from the very first accepted step, yet the loop runs
all 3 outer iterations to the cap — `‖b‖ < 1e-5` does not stop `SolveLM`
(and the initial `b_.norm()` value is irrelevant: here it is 0 as well). -/
theorem C2_counterexample :
    (lmLoopFull orcC2 3 0 1000 0 (1e20)).iters = 3 ∧
    (0 : ℚ) < 1e-5 ∧ (orcC2 0).newBNorm = 0 := by
  refine ⟨?_, by norm_num, rfl⟩
  norm_num [lmLoopFull, innerTries, orcC2]

/-- Claim C7: `solve(type, iterations)` returns `false` iff the graph is
empty (no edges or no vertices) or the solver type is not 0 or 1; in every
other case — whatever the loop does, including stopping at the iteration
cap — it returns `true`. -/
theorem C7_solve_return_value (solverType : ℤ) (orc : ℕ → TryOutcome)
    (nEdges nVerts iterations : ℕ) (chi0 bn0 : ℚ) :
    solve solverType orc nEdges nVerts iterations chi0 bn0 = false ↔
      (nEdges = 0 ∨ nVerts = 0 ∨ (solverType ≠ 0 ∧ solverType ≠ 1)) := by
  unfold solve solveLM solveDogLeg
  by_cases h0 : solverType = 0 <;> by_cases h1 : solverType = 1 <;>
    by_cases he : nEdges = 0 ∨ nVerts = 0 <;>
      simp [h0, h1, he]

/-- If the oracle only ever reports nonnegative `currentChi_` values, the
inner retry loop keeps `currentChi_` nonnegative. -/
theorem innerTries_chi_nonneg (orc : ℕ → TryOutcome)
    (horc : ∀ j, 0 ≤ (orc j).newChi) (fuel : ℕ) :
    ∀ (k : ℕ) (chi bn : ℚ), 0 ≤ chi → 0 ≤ (innerTries orc fuel k chi bn).chi := by
  induction fuel with
  | zero => exact fun k chi bn h => h
  | succ fuel ih =>
      intro k chi bn h
      by_cases hs : (orc k).success
      · simpa [innerTries, hs] using horc k
      · simpa [innerTries, hs] using ih (k + 1) chi bn h

/-- Claim C10: `SolveDogLeg` executes exactly one outer iteration whenever the
iteration cap is at least 1: `last_chi` is initialized to 0 and the cost is a
nonnegative half-sum of squares, so the test `last_chi - currentChi_ < 1e-5`
at the end of the first outer iteration always fires. -/
theorem C10_dogleg_single_iteration (orc : ℕ → TryOutcome) (fuel k : ℕ)
    (chi bn : ℚ) (hchi : 0 ≤ chi) (horc : ∀ j, 0 ≤ (orc j).newChi) :
    (dlLoopFull orc (fuel + 1) k chi bn 0).iters = 1 := by
  have h := innerTries_chi_nonneg orc horc 10 k chi bn hchi
  have hstop : (0 : ℚ) - (innerTries orc 10 k chi bn).chi < 1e-5 ∨
      (innerTries orc 10 k chi bn).bNorm < 1e-5 := by
    refine Or.inl ?_
    have : (0 : ℚ) < 1e-5 := by norm_num
    linarith
  simp only [dlLoopFull]
  rw [if_pos hstop]

/-! ### C1 : the linear system solved for the Dog-Leg Gauss-Newton step

`Problem::SolveDogLegStep` (problem.cc lines 839-858) solves for `h_gn_`: in
GENERIC mode it calls `H.ldlt().solve(b_)` on a copy of `Hessian_` with the
damping loop commented out; in SLAM mode it calls `SolveLinearWithSchur`
(lines 732-768).  `SolveLinearWithSchur` takes a `lambda` parameter but never
reads it: lines 758-760 add the member `currentLambda_` to every diagonal
entry of the Schur-reduced pose block before the `ldlt` factorization.  The
Eigen block `inverse()` calls are abstracted as an oracle `blockInv`. -/

/-- The sub-matrix `M.block(r, c, ...)` as a function shift. -/
def subBlock (M : Mat) (r c : ℕ) : Mat := fun x y => M (r + x) (c + y)

/-- `Hss_inv` (problem.cc lines 745-750): starts as the zero matrix; for each
landmark vertex `(orderingId, dim)` the diagonal block of size `dim` at offset
`orderingId - reserve_size` is set to the Eigen `inverse()` (oracle
`blockInv`, taking the block and its size) of the matching `Hss` block. -/
def buildHssInv (Hss : Mat) (blockInv : Mat → ℕ → Mat)
    (landmarks : List (ℕ × ℕ)) (reserve : ℕ) : Mat :=
  landmarks.foldl
    (fun M lm =>
      let idx := lm.1 - reserve
      let size := lm.2
      let inv := blockInv (subBlock Hss idx idx) size
      fun x y =>
        if idx ≤ x ∧ x < idx + size ∧ idx ≤ y ∧ y < idx + size then
          inv (x - idx) (y - idx)
        else M x y)
    (fun _ _ => 0)

/-- `Hrr_schur = Hrr - Hrs Hss_inv Hsr` (problem.cc lines 752-753), before
any damping. -/
def schurReducedH (H : Mat) (reserve schur : ℕ) (blockInv : Mat → ℕ → Mat)
    (landmarks : List (ℕ × ℕ)) : Mat :=
  let Hrr := subBlock H 0 0
  let Hss := subBlock H reserve reserve
  let Hrs := subBlock H 0 reserve
  let Hsr := subBlock H reserve 0
  let HssInv := buildHssInv Hss blockInv landmarks reserve
  let tempH := matMulR schur Hrs HssInv
  fun x y => Hrr x y - matMulR schur tempH Hsr x y

/-- The damping loop `for (i < reserve_size) Hrr_schur(i, i) += currentLambda_`
(problem.cc lines 758-760), unrolled from the top index down. -/
def bumpDiag (M : Mat) (lam : ℚ) : ℕ → Mat
  | 0 => M
  | r + 1 => fun x y =>
      if x = r ∧ y = r then bumpDiag M lam r x y + lam else bumpDiag M lam r x y

/-- `bumpDiag` adds `lam` exactly once to each diagonal entry below `r`. -/
theorem bumpDiag_eq (M : Mat) (lam : ℚ) (r : ℕ) :
    ∀ x y, bumpDiag M lam r x y = M x y + (if x = y ∧ x < r then lam else 0) := by
  induction r with
  | zero => intro x y; simp [bumpDiag]
  | succ r ih =>
      intro x y
      simp only [bumpDiag]
      by_cases h : x = r ∧ y = r
      · rw [if_pos h, ih x y]
        obtain ⟨hx, hy⟩ := h
        subst hx
        subst hy
        simp [Nat.lt_irrefl, Nat.lt_succ_self]
      · rw [if_neg h, ih x y]
        have hiff : (x = y ∧ x < r) ↔ (x = y ∧ x < r + 1) := by
          constructor
          · rintro ⟨h1, h2⟩
            exact ⟨h1, Nat.lt_succ_of_lt h2⟩
          · rintro ⟨h1, h2⟩
            refine ⟨h1, ?_⟩
            rcases Nat.lt_succ_iff_lt_or_eq.mp h2 with h3 | h3
            · exact h3
            · exact absurd (⟨h3, by omega⟩ : x = r ∧ y = r) h
        rw [if_congr hiff rfl rfl]

/-- The matrix handed to `Hrr_schur.ldlt().solve` in `SolveLinearWithSchur`
(problem.cc line 762): the Schur-reduced pose block after the
`+= currentLambda_` diagonal loop.  The function's own `lambda` parameter
(`lambdaParam`) appears in the source signature but is never read. -/
def schurSolvedMatrix (H : Mat) (reserve schur : ℕ) (blockInv : Mat → ℕ → Mat)
    (landmarks : List (ℕ × ℕ)) (lambdaParam currentLambda : ℚ) : Mat :=
  let _ := lambdaParam
  bumpDiag (schurReducedH H reserve schur blockInv landmarks) currentLambda reserve

/-- The matrix handed to `ldlt().solve` in the GENERIC branch of
`SolveDogLegStep` (problem.cc lines 845-852): `Hessian_` itself — the damping
loop there is commented out. -/
def dogLegGenericSolvedMatrix (Hessian : Mat) : Mat := Hessian

/-- Claim C1 counterexample: a 1-dimensional pose-only SLAM state with
`Hessian_ = (2)` and `currentLambda_ = 1`: the matrix factorized by the
Schur path of the Dog-Leg step is `(3) = (2 + currentLambda_)`, not the
undamped Schur reduction `(2)` — a lambda term *is* added to the diagonal. -/
theorem C1_counterexample :
    schurSolvedMatrix (fun _ _ => 2) 1 0 (fun _ _ => fun _ _ => 0) [] 0 1 0 0 = 3 ∧
    schurReducedH (fun _ _ => 2) 1 0 (fun _ _ => fun _ _ => 0) [] 0 0 = 2 := by
  constructor
  · norm_num [schurSolvedMatrix, bumpDiag, schurReducedH, subBlock, matMulR,
      buildHssInv, Finset.range_zero, Finset.sum_empty]
  · norm_num [schurReducedH, subBlock, matMulR, Finset.range_zero, Finset.sum_empty]

/-- Claim C1 (amended): in GENERIC mode the Dog-Leg Gauss-Newton solve is
undamped, but in SLAM mode `SolveLinearWithSchur` ignores its `lambda`
parameter and adds the member `currentLambda_` once to every diagonal entry
of the Schur-reduced pose block before factorizing; the solve is undamped
only in states where `currentLambda_ = 0`. -/
theorem C1_dogleg_solved_system (H : Mat) (reserve schur : ℕ)
    (blockInv : Mat → ℕ → Mat) (landmarks : List (ℕ × ℕ))
    (lambdaParam lambdaParam' currentLambda : ℚ) (x y : ℕ) :
    (schurSolvedMatrix H reserve schur blockInv landmarks lambdaParam currentLambda x y =
      schurReducedH H reserve schur blockInv landmarks x y +
        (if x = y ∧ x < reserve then currentLambda else 0)) ∧
    (schurSolvedMatrix H reserve schur blockInv landmarks lambdaParam currentLambda =
      schurSolvedMatrix H reserve schur blockInv landmarks lambdaParam' currentLambda) ∧
    dogLegGenericSolvedMatrix H = H :=
  ⟨bumpDiag_eq (schurReducedH H reserve schur blockInv landmarks) currentLambda reserve x y,
   rfl, rfl⟩

/-! ### C3 : `Problem::SetOrdering` (problem.cc lines 364-393)

`verticies_` is a `std::map` keyed by vertex id, so the walk is in ascending
id order; we represent it as the list of vertices in that order.  The walk
always accumulates `ordering_generic_`; in SLAM mode `AddOrderingSLAM`
(lines 68-78) assigns pose-like vertices consecutive offsets from
`ordering_poses_` and landmark-like ones from `ordering_landmarks_`, leaving
any other vertex untouched; afterwards every landmark offset is shifted by
the total pose dimension.  In GENERIC mode no ordering id is assigned at
all. -/

/-- The fields of `Vertex` that `SetOrdering` reads or writes:
`Id()`, `LocalDimension()`, `TypeInfo()`, `OrderingId()` (−1 when unassigned,
cf. `RemoveVertex`). -/
structure OVertex where
  vid : ℕ
  localDim : ℕ
  typeInfo : String
  orderingId : ℤ
deriving DecidableEq

/-- `Problem::IsPoseVertex` (problem.cc lines 102-106): string-tag test. -/
def isPoseVertex (v : OVertex) : Bool :=
  v.typeInfo == "VertexPose" || v.typeInfo == "VertexSpeedBias"

/-- `Problem::IsLandmarkVertex` (problem.cc lines 108-112). -/
def isLandmarkVertex (v : OVertex) : Bool :=
  v.typeInfo == "VertexPointXYZ" || v.typeInfo == "VertexInverseDepth"

/-- `Problem::ProblemType`. -/
inductive ProblemType
  | generic
  | slam
deriving DecidableEq

/-- The SLAM walk of `SetOrdering` calling `AddOrderingSLAM` on each vertex
in ascending id order: carries `ordering_poses_` and `ordering_landmarks_`,
assigns each pose-like vertex the current pose counter and each
landmark-like vertex the current landmark counter, and returns the final
counters with the updated vertex list. -/
def addOrderingWalk : ℕ → ℕ → List OVertex → ℕ × ℕ × List OVertex
  | op, ol, [] => (op, ol, [])
  | op, ol, v :: rest =>
      if isPoseVertex v then
        let r := addOrderingWalk (op + v.localDim) ol rest
        (r.1, r.2.1, { v with orderingId := (op : ℤ) } :: r.2.2)
      else if isLandmarkVertex v then
        let r := addOrderingWalk op (ol + v.localDim) rest
        (r.1, r.2.1, { v with orderingId := (ol : ℤ) } :: r.2.2)
      else
        let r := addOrderingWalk op ol rest
        (r.1, r.2.1, v :: r.2.2)

/-- Result of `SetOrdering`: the three counters and the vertex list. -/
structure OrderingResult where
  orderingPoses : ℕ
  orderingLandmarks : ℕ
  orderingGeneric : ℕ
  verts : List OVertex

/-- The per-landmark shift of the second phase of `SetOrdering`
(problem.cc lines 382-390): `SetOrderingId(OrderingId() + all_pose_dimension)`
for landmark vertices, identity otherwise. -/
def shiftLandmark (op : ℕ) (v : OVertex) : OVertex :=
  if isLandmarkVertex v then { v with orderingId := v.orderingId + (op : ℤ) } else v

/-- `Problem::SetOrdering` (problem.cc lines 364-393): zero the counters,
walk vertices in ascending id accumulating `ordering_generic_`; in SLAM mode
run `AddOrderingSLAM` on each vertex and then shift every landmark ordering
id by the total pose dimension; in GENERIC mode ordering ids are not
assigned. -/
def setOrdering (pt : ProblemType) (vs : List OVertex) : OrderingResult :=
  let og := (vs.map (fun v => v.localDim)).sum
  match pt with
  | ProblemType.generic => ⟨0, 0, og, vs⟩
  | ProblemType.slam =>
      let w := addOrderingWalk 0 0 vs
      ⟨w.1, w.2.1, og, w.2.2.map (shiftLandmark w.1)⟩

/-- Sum of local dimensions of a vertex list. -/
def sumDims (vs : List OVertex) : ℕ := (vs.map (fun v => v.localDim)).sum

/-- A list of vertices occupies consecutive offset blocks starting at
`start`: the first vertex sits at `start`, the next at `start + dim`, … -/
def denselyPacked : ℤ → List OVertex → Prop
  | _, [] => True
  | start, v :: rest => v.orderingId = start ∧ denselyPacked (start + v.localDim) rest

/-- Claim C3 counterexample: a GENERIC-mode problem with one fresh 3-dim
vertex (`ordering_id = -1`, never assigned).  After `SetOrdering`,
`ordering_generic = 3` but the vertex's ordering id is still −1, outside
`[0, ordering_generic)`. -/
theorem C3_counterexample :
    (setOrdering ProblemType.generic [⟨7, 3, "VertexPose", -1⟩]).orderingGeneric = 3 ∧
    (setOrdering ProblemType.generic [⟨7, 3, "VertexPose", -1⟩]).verts =
      [⟨7, 3, "VertexPose", -1⟩] ∧
    ¬ (0 ≤ (-1 : ℤ) ∧ (-1 : ℤ) < 3) := by
  refine ⟨rfl, rfl, ?_⟩
  rintro ⟨h, -⟩
  omega

/-- A pose-like vertex is never landmark-like: the four type tags are
distinct strings. -/
theorem pose_not_landmark (v : OVertex) :
    isPoseVertex v = true → isLandmarkVertex v = false := by
  intro h
  rcases Bool.or_eq_true _ _ |>.mp h with h1 | h1
  · have h2 := eq_of_beq h1
    unfold isLandmarkVertex
    rw [h2]
    decide
  · have h2 := eq_of_beq h1
    unfold isLandmarkVertex
    rw [h2]
    decide

/-- Ordering-id updates do not change the pose/landmark classification. -/
theorem isPose_update (v : OVertex) (x : ℤ) :
    isPoseVertex { v with orderingId := x } = isPoseVertex v := rfl

/-- Ordering-id updates do not change the landmark classification. -/
theorem isLandmark_update (v : OVertex) (x : ℤ) :
    isLandmarkVertex { v with orderingId := x } = isLandmarkVertex v := rfl

/-- The final counters of the SLAM walk: each counter advanced by the summed
local dimensions of the vertices of its class. -/
theorem addOrderingWalk_counters (vs : List OVertex) :
    ∀ (op ol : ℕ),
    (addOrderingWalk op ol vs).1 =
      op + sumDims (vs.filter (fun v => isPoseVertex v)) ∧
    (addOrderingWalk op ol vs).2.1 =
      ol + sumDims (vs.filter (fun v => isLandmarkVertex v)) := by
  induction vs with
  | nil => intro op ol; simp [addOrderingWalk, sumDims]
  | cons v rest ih =>
      intro op ol
      by_cases hp : isPoseVertex v = true
      · have hl : isLandmarkVertex v = false := pose_not_landmark v hp
        obtain ⟨h1, h2⟩ := ih (op + v.localDim) ol
        simp [addOrderingWalk, hp, hl, List.filter_cons, h1, h2, sumDims]
        ring
      · have hp' : isPoseVertex v = false := by simpa using hp
        by_cases hl : isLandmarkVertex v = true
        · obtain ⟨h1, h2⟩ := ih op (ol + v.localDim)
          simp [addOrderingWalk, hp', hl, List.filter_cons, h1, h2, sumDims]
          ring
        · have hl' : isLandmarkVertex v = false := by simpa using hl
          obtain ⟨h1, h2⟩ := ih op ol
          simp [addOrderingWalk, hp', hl', List.filter_cons, h1, h2]

/-- The pose-like vertices of the SLAM walk output are densely packed from
the incoming pose counter. -/
theorem addOrderingWalk_poses_packed (vs : List OVertex) :
    ∀ (op ol : ℕ),
    denselyPacked (op : ℤ) (((addOrderingWalk op ol vs).2.2).filter
      (fun v => isPoseVertex v)) := by
  induction vs with
  | nil => intro op ol; simp [addOrderingWalk, denselyPacked]
  | cons v rest ih =>
      intro op ol
      by_cases hp : isPoseVertex v = true
      · have hp' : isPoseVertex { v with orderingId := (op : ℤ) } = true := hp
        have h2 := ih (op + v.localDim) ol
        rw [Nat.cast_add] at h2
        simp [addOrderingWalk, hp, List.filter_cons, hp', denselyPacked]
        exact h2
      · have hp' : isPoseVertex v = false := by simpa using hp
        by_cases hl : isLandmarkVertex v = true
        · have hp'' : isPoseVertex { v with orderingId := (ol : ℤ) } = false := hp'
          simp [addOrderingWalk, hp', hl, List.filter_cons, hp'']
          exact ih op (ol + v.localDim)
        · have hl' : isLandmarkVertex v = false := by simpa using hl
          simp [addOrderingWalk, hp', hl', List.filter_cons]
          exact ih op ol

/-- The landmark-like vertices of the SLAM walk output are densely packed
from the incoming landmark counter. -/
theorem addOrderingWalk_landmarks_packed (vs : List OVertex) :
    ∀ (op ol : ℕ),
    denselyPacked (ol : ℤ) (((addOrderingWalk op ol vs).2.2).filter
      (fun v => isLandmarkVertex v)) := by
  induction vs with
  | nil => intro op ol; simp [addOrderingWalk, denselyPacked]
  | cons v rest ih =>
      intro op ol
      by_cases hp : isPoseVertex v = true
      · have hl : isLandmarkVertex v = false := pose_not_landmark v hp
        have hl' : isLandmarkVertex { v with orderingId := (op : ℤ) } = false := hl
        simp [addOrderingWalk, hp, List.filter_cons, hl']
        exact ih (op + v.localDim) ol
      · have hp' : isPoseVertex v = false := by simpa using hp
        by_cases hl : isLandmarkVertex v = true
        · have hl' : isLandmarkVertex { v with orderingId := (ol : ℤ) } = true := hl
          have h2 := ih op (ol + v.localDim)
          rw [Nat.cast_add] at h2
          simp [addOrderingWalk, hp', hl, List.filter_cons, hl', denselyPacked]
          exact h2
        · have hl' : isLandmarkVertex v = false := by simpa using hl
          simp [addOrderingWalk, hp', hl', List.filter_cons]
          exact ih op ol

/-- An oracle for the C10 witness: every try accepted, `currentChi_ = 1`,
`b_.norm() = 1` afterwards. -/
def orcC10 : ℕ → TryOutcome := fun _ => ⟨true, 1, 1⟩

/-- Witness for C10 at a concrete run: initial cost 5, `b_.norm()` 7 (well
above the 1e-5 threshold), iteration cap 3 — exactly one outer iteration. -/
theorem C10_dogleg_single_iteration_witness :
    (0 : ℚ) ≤ 5 ∧ (dlLoopFull orcC10 3 0 5 7 0).iters = 1 :=
  ⟨by norm_num,
   C10_dogleg_single_iteration orcC10 2 0 5 7 (by norm_num)
     (fun _ => by norm_num [orcC10])⟩


/-- Filtering commutes with mapping a classification-preserving function. -/
theorem filter_map_of_pres (p : OVertex → Bool) (f : OVertex → OVertex)
    (hf : ∀ v, p (f v) = p v) (l : List OVertex) :
    (l.map f).filter p = (l.filter p).map f := by
  induction l with
  | nil => simp
  | cons v rest ih =>
      by_cases hv : p v = true
      · simp [List.filter_cons, hv, hf, ih]
      · have hv' : p v = false := by simpa using hv
        simp [List.filter_cons, hv', hf, ih]

/-- `shiftLandmark` preserves the pose classification. -/
theorem isPose_shiftLandmark (op : ℕ) (v : OVertex) :
    isPoseVertex (shiftLandmark op v) = isPoseVertex v := by
  unfold shiftLandmark
  by_cases h : isLandmarkVertex v = true
  · rw [if_pos h]; rfl
  · rw [if_neg h]

/-- `shiftLandmark` preserves the landmark classification. -/
theorem isLandmark_shiftLandmark (op : ℕ) (v : OVertex) :
    isLandmarkVertex (shiftLandmark op v) = isLandmarkVertex v := by
  unfold shiftLandmark
  by_cases h : isLandmarkVertex v = true
  · rw [if_pos h]; rfl
  · rw [if_neg h]

/-- `shiftLandmark` preserves local dimensions. -/
theorem localDim_shiftLandmark (op : ℕ) (v : OVertex) :
    (shiftLandmark op v).localDim = v.localDim := by
  unfold shiftLandmark
  by_cases h : isLandmarkVertex v = true
  · rw [if_pos h]
  · rw [if_neg h]

/-- Shifting every ordering id by `c` shifts a densely packed block by `c`. -/
theorem denselyPacked_shift (c : ℤ) (l : List OVertex) :
    ∀ s : ℤ, denselyPacked s l →
      denselyPacked (s + c)
        (l.map (fun v => { v with orderingId := v.orderingId + c })) := by
  induction l with
  | nil => intro s _; simp [denselyPacked]
  | cons v rest ih =>
      intro s h
      obtain ⟨h1, h2⟩ := h
      refine ⟨?_, ?_⟩
      · show v.orderingId + c = s + c
        rw [h1]
      · show denselyPacked (s + c + (v.localDim : ℤ)) _
        have heq : s + c + (v.localDim : ℤ) = s + (v.localDim : ℤ) + c := by ring
        rw [heq]
        exact ih (s + v.localDim) h2

/-- `sumDims` distributes over cons. -/
theorem sumDims_cons (v : OVertex) (l : List OVertex) :
    sumDims (v :: l) = v.localDim + sumDims l := by
  simp [sumDims]

/-- Members of a densely packed block with positive dims lie in
`[start, start + sumDims)`. -/
theorem denselyPacked_mem_bounds (l : List OVertex) :
    ∀ s : ℤ, denselyPacked s l → (∀ v ∈ l, 1 ≤ v.localDim) →
      ∀ v ∈ l, s ≤ v.orderingId ∧ v.orderingId < s + (sumDims l : ℤ) := by
  induction l with
  | nil => intro s _ _ v hv; cases hv
  | cons w rest ih =>
      intro s h hdim v hv
      obtain ⟨h1, h2⟩ := h
      have hsum : (sumDims (w :: rest) : ℤ) = (w.localDim : ℤ) + (sumDims rest : ℤ) := by
        rw [sumDims_cons]; push_cast; ring
      rcases List.mem_cons.mp hv with rfl | hv'
      · have hw : 1 ≤ v.localDim := hdim v (List.mem_cons_self v rest)
        rw [hsum]
        omega
      · have hb := ih (s + w.localDim) h2
          (fun u hu => hdim u (List.mem_cons_of_mem w hu)) v hv'
        rw [hsum]
        omega

/-- Every member of the SLAM walk output shares local dimension and type tag
with some input vertex. -/
theorem addOrderingWalk_mem (vs : List OVertex) :
    ∀ (op ol : ℕ) (w : OVertex), w ∈ (addOrderingWalk op ol vs).2.2 →
      ∃ v ∈ vs, w.localDim = v.localDim ∧ w.typeInfo = v.typeInfo := by
  induction vs with
  | nil => intro op ol w hw; simp [addOrderingWalk] at hw
  | cons v rest ih =>
      intro op ol w hw
      by_cases hp : isPoseVertex v = true
      · simp only [addOrderingWalk, hp, if_true] at hw
        rcases List.mem_cons.mp hw with rfl | hw'
        · exact ⟨v, List.mem_cons_self v rest, rfl, rfl⟩
        · obtain ⟨u, hu, h1, h2⟩ := ih (op + v.localDim) ol w hw'
          exact ⟨u, List.mem_cons_of_mem v hu, h1, h2⟩
      · have hp' : isPoseVertex v = false := by simpa using hp
        by_cases hl : isLandmarkVertex v = true
        · simp only [addOrderingWalk, hp', hl, Bool.false_eq_true, if_false,
            if_true] at hw
          rcases List.mem_cons.mp hw with rfl | hw'
          · exact ⟨v, List.mem_cons_self v rest, rfl, rfl⟩
          · obtain ⟨u, hu, h1, h2⟩ := ih op (ol + v.localDim) w hw'
            exact ⟨u, List.mem_cons_of_mem v hu, h1, h2⟩
        · have hl' : isLandmarkVertex v = false := by simpa using hl
          simp only [addOrderingWalk, hp', hl', Bool.false_eq_true, if_false] at hw
          rcases List.mem_cons.mp hw with hweq | hw'
          · exact ⟨v, List.mem_cons_self v rest, by rw [hweq], by rw [hweq]⟩
          · obtain ⟨u, hu, h1, h2⟩ := ih op ol w hw'
            exact ⟨u, List.mem_cons_of_mem v hu, h1, h2⟩

/-- The summed dimensions of each class are unchanged by the SLAM walk. -/
theorem addOrderingWalk_filter_sums (vs : List OVertex) :
    ∀ (op ol : ℕ),
    sumDims (((addOrderingWalk op ol vs).2.2).filter (fun v => isPoseVertex v)) =
      sumDims (vs.filter (fun v => isPoseVertex v)) ∧
    sumDims (((addOrderingWalk op ol vs).2.2).filter (fun v => isLandmarkVertex v)) =
      sumDims (vs.filter (fun v => isLandmarkVertex v)) := by
  induction vs with
  | nil => intro op ol; simp [addOrderingWalk]
  | cons v rest ih =>
      intro op ol
      by_cases hp : isPoseVertex v = true
      · have hl : isLandmarkVertex v = false := pose_not_landmark v hp
        have hpu : isPoseVertex { v with orderingId := (op : ℤ) } = true := hp
        have hlu : isLandmarkVertex { v with orderingId := (op : ℤ) } = false := hl
        obtain ⟨h1, h2⟩ := ih (op + v.localDim) ol
        simp [addOrderingWalk, hp, hl, hpu, hlu, List.filter_cons, sumDims_cons, h1, h2]
      · have hp' : isPoseVertex v = false := by simpa using hp
        by_cases hl : isLandmarkVertex v = true
        · have hpu : isPoseVertex { v with orderingId := (ol : ℤ) } = false := hp'
          have hlu : isLandmarkVertex { v with orderingId := (ol : ℤ) } = true := hl
          obtain ⟨h1, h2⟩ := ih op (ol + v.localDim)
          simp [addOrderingWalk, hp', hl, hpu, hlu, List.filter_cons, sumDims_cons, h1, h2]
        · have hl' : isLandmarkVertex v = false := by simpa using hl
          obtain ⟨h1, h2⟩ := ih op ol
          simp [addOrderingWalk, hp', hl', List.filter_cons, h1, h2]

/-- For an all-classified vertex list the total dimension splits into pose
and landmark parts. -/
theorem sumDims_split (vs : List OVertex)
    (hclass : ∀ v ∈ vs, isPoseVertex v = true ∨ isLandmarkVertex v = true) :
    sumDims vs = sumDims (vs.filter (fun v => isPoseVertex v)) +
      sumDims (vs.filter (fun v => isLandmarkVertex v)) := by
  induction vs with
  | nil => simp [sumDims]
  | cons v rest ih =>
      have hrest := ih (fun u hu => hclass u (List.mem_cons_of_mem v hu))
      by_cases hp : isPoseVertex v = true
      · have hl' : isLandmarkVertex v = false := pose_not_landmark v hp
        simp [List.filter_cons, hp, hl', sumDims_cons, hrest]
        ring
      · have hp' : isPoseVertex v = false := by simpa using hp
        have hl : isLandmarkVertex v = true := by
          rcases hclass v (List.mem_cons_self v rest) with h | h
          · exact absurd h hp
          · exact h
        simp [List.filter_cons, hp', hl, sumDims_cons, hrest]
        ring

/-- Dimensions are unchanged by a uniform ordering-id shift. -/
theorem sumDims_map_shift (c : ℤ) (l : List OVertex) :
    sumDims (l.map (fun v => { v with orderingId := v.orderingId + c })) = sumDims l := by
  unfold sumDims
  rw [List.map_map]
  rfl

/-- The `isPoseVertex` test depends only on the type tag. -/
theorem isPose_of_typeInfo (u v : OVertex) (h : u.typeInfo = v.typeInfo) :
    isPoseVertex u = isPoseVertex v := by
  unfold isPoseVertex
  rw [h]

/-- The `isLandmarkVertex` test depends only on the type tag. -/
theorem isLandmark_of_typeInfo (u v : OVertex) (h : u.typeInfo = v.typeInfo) :
    isLandmarkVertex u = isLandmarkVertex v := by
  unfold isLandmarkVertex
  rw [h]

/-- Claim C3 (amended): after `SetOrdering` on a SLAM-mode problem whose
vertices are all pose-like or landmark-like with positive local dimension:
`ordering_generic` is the total local dimension and splits as
`ordering_poses + ordering_landmarks`; the pose-like vertices are densely
packed from offset 0, the landmark-like ones densely packed from
`ordering_poses`; and every vertex's ordering id lies in
`[0, ordering_generic)`.  (In GENERIC mode ordering ids are not assigned —
see the counterexample.) -/
theorem C3_slam_ordering (vs : List OVertex)
    (hclass : ∀ v ∈ vs, isPoseVertex v = true ∨ isLandmarkVertex v = true)
    (hdim : ∀ v ∈ vs, 1 ≤ v.localDim) :
    (setOrdering ProblemType.slam vs).orderingGeneric = sumDims vs ∧
    (setOrdering ProblemType.slam vs).orderingGeneric =
      (setOrdering ProblemType.slam vs).orderingPoses +
        (setOrdering ProblemType.slam vs).orderingLandmarks ∧
    denselyPacked 0
      ((setOrdering ProblemType.slam vs).verts.filter (fun v => isPoseVertex v)) ∧
    denselyPacked ((setOrdering ProblemType.slam vs).orderingPoses : ℤ)
      ((setOrdering ProblemType.slam vs).verts.filter (fun v => isLandmarkVertex v)) ∧
    ∀ v ∈ (setOrdering ProblemType.slam vs).verts,
      0 ≤ v.orderingId ∧
        v.orderingId < ((setOrdering ProblemType.slam vs).orderingGeneric : ℤ) := by
  have hr : setOrdering ProblemType.slam vs =
      ⟨(addOrderingWalk 0 0 vs).1, (addOrderingWalk 0 0 vs).2.1, sumDims vs,
        (addOrderingWalk 0 0 vs).2.2.map (shiftLandmark (addOrderingWalk 0 0 vs).1)⟩ :=
    rfl
  rw [hr]
  simp only []
  obtain ⟨hcp, hcl⟩ := addOrderingWalk_counters vs 0 0
  rw [Nat.zero_add] at hcp hcl
  have hpp := addOrderingWalk_poses_packed vs 0 0
  have hlp := addOrderingWalk_landmarks_packed vs 0 0
  obtain ⟨hfsP, hfsL⟩ := addOrderingWalk_filter_sums vs 0 0
  -- the pose filter of the shifted list is the pose filter of the walk output
  have hposeF :
      (((addOrderingWalk 0 0 vs).2.2.map
          (shiftLandmark (addOrderingWalk 0 0 vs).1)).filter (fun v => isPoseVertex v)) =
      (addOrderingWalk 0 0 vs).2.2.filter (fun v => isPoseVertex v) := by
    rw [filter_map_of_pres _ _
      (fun v => isPose_shiftLandmark (addOrderingWalk 0 0 vs).1 v)]
    have hid : ∀ v ∈ (addOrderingWalk 0 0 vs).2.2.filter (fun v => isPoseVertex v),
        shiftLandmark (addOrderingWalk 0 0 vs).1 v = v := by
      intro v hv
      have hp : isPoseVertex v = true := by
        simpa using (List.mem_filter.mp hv).2
      have hl : isLandmarkVertex v = false := pose_not_landmark v hp
      unfold shiftLandmark
      rw [if_neg (by simp [hl])]
    rw [List.map_congr_left hid, List.map_id']
  -- the landmark filter of the shifted list is the shifted landmark filter
  have hlandF :
      (((addOrderingWalk 0 0 vs).2.2.map
          (shiftLandmark (addOrderingWalk 0 0 vs).1)).filter
            (fun v => isLandmarkVertex v)) =
      ((addOrderingWalk 0 0 vs).2.2.filter (fun v => isLandmarkVertex v)).map
        (fun v => { v with
          orderingId := v.orderingId + ((addOrderingWalk 0 0 vs).1 : ℤ) }) := by
    rw [filter_map_of_pres _ _
      (fun v => isLandmark_shiftLandmark (addOrderingWalk 0 0 vs).1 v)]
    apply List.map_congr_left
    intro v hv
    have hl : isLandmarkVertex v = true := by
      simpa using (List.mem_filter.mp hv).2
    unfold shiftLandmark
    rw [if_pos hl]
  -- every member of the final vertex list has dimension ≥ 1 and is classified
  have hmem : ∀ w ∈ (addOrderingWalk 0 0 vs).2.2.map
      (shiftLandmark (addOrderingWalk 0 0 vs).1),
      1 ≤ w.localDim ∧ (isPoseVertex w = true ∨ isLandmarkVertex w = true) := by
    intro w hw
    obtain ⟨u, hu, rfl⟩ := List.mem_map.mp hw
    obtain ⟨v0, hv0, hdimEq, hty⟩ := addOrderingWalk_mem vs 0 0 u hu
    have hd : 1 ≤ u.localDim := hdimEq ▸ hdim v0 hv0
    have hcls : isPoseVertex u = true ∨ isLandmarkVertex u = true := by
      rcases hclass v0 hv0 with h | h
      · exact Or.inl ((isPose_of_typeInfo u v0 hty).trans h)
      · exact Or.inr ((isLandmark_of_typeInfo u v0 hty).trans h)
    refine ⟨?_, ?_⟩
    · rw [localDim_shiftLandmark]; exact hd
    · rw [isPose_shiftLandmark, isLandmark_shiftLandmark]; exact hcls
  have hsplit := sumDims_split vs hclass
  refine ⟨trivial, ?_, ?_, ?_, ?_⟩
  · rw [hcp, hcl]; exact hsplit
  · rw [hposeF]; exact hpp
  · rw [hlandF]
    have := denselyPacked_shift ((addOrderingWalk 0 0 vs).1 : ℤ)
      ((addOrderingWalk 0 0 vs).2.2.filter (fun v => isLandmarkVertex v)) 0 hlp
    simpa using this
  · intro v hv
    obtain ⟨hd1, hcls⟩ := hmem v hv
    rcases hcls with hp | hl
    · have hvf : v ∈ ((addOrderingWalk 0 0 vs).2.2.map
          (shiftLandmark (addOrderingWalk 0 0 vs).1)).filter
            (fun v => isPoseVertex v) :=
        List.mem_filter.mpr ⟨hv, by simpa using hp⟩
      have hdims : ∀ u ∈ ((addOrderingWalk 0 0 vs).2.2.map
          (shiftLandmark (addOrderingWalk 0 0 vs).1)).filter
            (fun v => isPoseVertex v), 1 ≤ u.localDim :=
        fun u hu => (hmem u (List.mem_filter.mp hu).1).1
      have hb := denselyPacked_mem_bounds _ 0 (by rw [hposeF]; exact hpp) hdims v hvf
      have hsum : sumDims (((addOrderingWalk 0 0 vs).2.2.map
          (shiftLandmark (addOrderingWalk 0 0 vs).1)).filter
            (fun v => isPoseVertex v)) =
          sumDims (vs.filter (fun v => isPoseVertex v)) := by
        rw [hposeF]; exact hfsP
      rw [hsum] at hb
      constructor
      · linarith [hb.1]
      · have h2 := hb.2
        have : (sumDims (vs.filter (fun v => isPoseVertex v)) : ℤ) ≤ (sumDims vs : ℤ) := by
          rw [hsplit]; push_cast; omega
        omega
    · have hvf : v ∈ ((addOrderingWalk 0 0 vs).2.2.map
          (shiftLandmark (addOrderingWalk 0 0 vs).1)).filter
            (fun v => isLandmarkVertex v) :=
        List.mem_filter.mpr ⟨hv, by simpa using hl⟩
      have hdims : ∀ u ∈ ((addOrderingWalk 0 0 vs).2.2.map
          (shiftLandmark (addOrderingWalk 0 0 vs).1)).filter
            (fun v => isLandmarkVertex v), 1 ≤ u.localDim :=
        fun u hu => (hmem u (List.mem_filter.mp hu).1).1
      have hpacked : denselyPacked ((addOrderingWalk 0 0 vs).1 : ℤ)
          (((addOrderingWalk 0 0 vs).2.2.map
            (shiftLandmark (addOrderingWalk 0 0 vs).1)).filter
              (fun v => isLandmarkVertex v)) := by
        rw [hlandF]
        have := denselyPacked_shift ((addOrderingWalk 0 0 vs).1 : ℤ)
          ((addOrderingWalk 0 0 vs).2.2.filter (fun v => isLandmarkVertex v)) 0 hlp
        simpa using this
      have hb := denselyPacked_mem_bounds _ _ hpacked hdims v hvf
      have hsum : sumDims (((addOrderingWalk 0 0 vs).2.2.map
          (shiftLandmark (addOrderingWalk 0 0 vs).1)).filter
            (fun v => isLandmarkVertex v)) =
          sumDims (vs.filter (fun v => isLandmarkVertex v)) := by
        rw [hlandF, sumDims_map_shift]; exact hfsL
      rw [hsum] at hb
      constructor
      · have : (0 : ℤ) ≤ ((addOrderingWalk 0 0 vs).1 : ℤ) := by positivity
        linarith [hb.1]
      · have h2 := hb.2
        have hg : (sumDims vs : ℤ) = ((addOrderingWalk 0 0 vs).1 : ℤ) +
            (sumDims (vs.filter (fun v => isLandmarkVertex v)) : ℤ) := by
          rw [hcp]
          push_cast [hsplit]
          ring
        omega

/-- Concrete SLAM vertex list for the C3 witness: a 6-dim pose, a 3-dim
landmark, and a 9-dim speed-bias vertex, all unassigned. -/
def vsC3 : List OVertex :=
  [⟨0, 6, "VertexPose", -1⟩, ⟨1, 3, "VertexPointXYZ", -1⟩, ⟨2, 9, "VertexSpeedBias", -1⟩]

/-- Witness for C3 at a concrete SLAM vertex list. -/
theorem C3_slam_ordering_witness :
    (∀ v ∈ vsC3, isPoseVertex v = true ∨ isLandmarkVertex v = true) ∧
    (∀ v ∈ vsC3, 1 ≤ v.localDim) ∧
    (∀ v ∈ (setOrdering ProblemType.slam vsC3).verts,
      0 ≤ v.orderingId ∧
        v.orderingId < ((setOrdering ProblemType.slam vsC3).orderingGeneric : ℤ)) :=
  ⟨by decide, by decide,
   (C3_slam_ordering vsC3 (by decide) (by decide)).2.2.2.2⟩

/-! ### C6 : `Problem::MakeHessianSingle` (problem.cc lines 644-730)

Per edge the assembler computes the residual and Jacobians (external), the
robust information matrix `W̃` and `drho` (external), then for each non-fixed
incident vertex `i` forms `JtW = Jᵢᵀ W̃` and for each `j ≥ i` (in the edge's
vertex order) adds `JtW Jⱼ` at block `(idx_i, idx_j)`, mirroring its
transpose at `(idx_j, idx_i)` when `j ≠ i`; the right-hand side accumulates
`-drho · Jᵢᵀ · Information · residual`.  Finally, if the prior has rows, a
copy of `H_prior` with the blocks of fixed pose vertices zeroed is added to
the top-left `ordering_poses × ordering_poses` corner.  Edges are embedded by
the data the assembler reads: the ordered incident vertices (ordering id,
local dimension, fixed flag) with their Jacobians, the residual dimension,
the information and robust-information matrices, `drho`, and the residual. -/

/-- The vertex data read by the assembler. -/
structure EVertexInfo where
  ordId : ℕ
  dim : ℕ
  fixed : Bool

/-- The edge data read by the assembler. -/
structure EEdge where
  pieces : List (EVertexInfo × Mat)
  resDim : ℕ
  information : Mat
  robustInfo : Mat
  drho : ℚ
  residual : Vec

/-- `H.block(r, c, dr, dc).noalias() += M`. -/
def blockAdd (H : Mat) (r c dr dc : ℕ) (M : Mat) : Mat :=
  fun x y =>
    H x y + (if r ≤ x ∧ x < r + dr ∧ c ≤ y ∧ y < c + dc then M (x - r) (y - c) else 0)

/-- `b.segment(r, dr).noalias() -= w`. -/
def segSub (bv : Vec) (r dr : ℕ) (w : Vec) : Vec :=
  fun x => bv x - (if r ≤ x ∧ x < r + dr then w (x - r) else 0)

/-- The inner `j`-loop for `j > i`: add `JtW Jⱼ` at `(idx_i, idx_j)` and its
transpose at `(idx_j, idx_i)`, skipping fixed vertices. -/
def mirrorAccum (resDim : ℕ) (vi : EVertexInfo) (JtW : Mat) :
    List (EVertexInfo × Mat) → Mat → Mat
  | [], H => H
  | (vj, Jj) :: rest, H =>
      if vj.fixed then mirrorAccum resDim vi JtW rest H
      else
        let hess := matMulR resDim JtW Jj
        mirrorAccum resDim vi JtW rest
          (blockAdd (blockAdd H vi.ordId vj.ordId vi.dim vj.dim hess)
            vj.ordId vi.ordId vj.dim vi.dim (transposeM hess))

/-- The `j`-loop for one non-fixed vertex `i`: the `j = i` diagonal block
first, then the mirrored off-diagonal blocks for the remaining vertices. -/
def rowAccumH (resDim : ℕ) (vi : EVertexInfo) (Ji W : Mat)
    (rest : List (EVertexInfo × Mat)) (H : Mat) : Mat :=
  let JtW := matMulR resDim (transposeM Ji) W
  mirrorAccum resDim vi JtW rest
    (blockAdd H vi.ordId vi.ordId vi.dim vi.dim (matMulR resDim JtW Ji))

/-- The outer `i`-loop over the edge's vertices (H part). -/
def edgeAccumH (resDim : ℕ) (W : Mat) : List (EVertexInfo × Mat) → Mat → Mat
  | [], H => H
  | (vi, Ji) :: rest, H =>
      if vi.fixed then edgeAccumH resDim W rest H
      else edgeAccumH resDim W rest (rowAccumH resDim vi Ji W rest H)

/-- The outer `i`-loop over the edge's vertices (b part):
`b.segment(idx_i, dim_i) -= drho * Jᵢᵀ * Information * residual`. -/
def edgeAccumB (resDim : ℕ) (drho : ℚ) (info : Mat) (residual : Vec) :
    List (EVertexInfo × Mat) → Vec → Vec
  | [], bv => bv
  | (vi, Ji) :: rest, bv =>
      if vi.fixed then edgeAccumB resDim drho info residual rest bv
      else edgeAccumB resDim drho info residual rest
        (segSub bv vi.ordId vi.dim
          (fun x => drho * matVecR resDim (matMulR resDim (transposeM Ji) info) residual x))

/-- Zero the block rows and columns of the fixed pose vertices in the prior
copy (problem.cc lines 713-722). -/
def maskPrior : List (ℕ × ℕ) → Mat → Mat
  | [], P => P
  | (idx, dim) :: rest, P =>
      maskPrior rest (fun x y =>
        if (idx ≤ x ∧ x < idx + dim) ∨ (idx ≤ y ∧ y < idx + dim) then 0 else P x y)

/-- Zero the segments of the fixed pose vertices in the prior rhs copy. -/
def maskPriorB : List (ℕ × ℕ) → Vec → Vec
  | [], bp => bp
  | (idx, dim) :: rest, bp =>
      maskPriorB rest (fun x => if idx ≤ x ∧ x < idx + dim then 0 else bp x)

/-- `Problem::MakeHessianSingle` (problem.cc lines 644-730): accumulate every
edge into the zero-initialized `H` and `b`, then, if the prior is non-empty,
add the fixed-vertex-masked prior into the top-left pose corner of `H` and
the head of `b`. -/
def makeHessianSingle (edges : List EEdge) (priorRows : ℕ) (HPrior : Mat)
    (bPrior : Vec) (fixedPoses : List (ℕ × ℕ)) (orderingPoses : ℕ) : Mat × Vec :=
  let Hb := edges.foldl
    (fun (acc : Mat × Vec) e =>
      (edgeAccumH e.resDim e.robustInfo e.pieces acc.1,
       edgeAccumB e.resDim e.drho e.information e.residual e.pieces acc.2))
    (fun _ _ => 0, fun _ => 0)
  if 0 < priorRows then
    let Hp := maskPrior fixedPoses HPrior
    let bp := maskPriorB fixedPoses bPrior
    (blockAdd Hb.1 0 0 orderingPoses orderingPoses Hp,
     fun x => Hb.2 x + (if x < orderingPoses then bp x else 0))
  else Hb

/-- A mirrored pair of block additions preserves symmetry (for any block). -/
theorem blockAdd_pair_symm (H : Mat) (hS : SymmM H) (a b da db : ℕ) (M : Mat) :
    SymmM (blockAdd (blockAdd H a b da db M) b a db da (transposeM M)) := by
  intro x y
  unfold blockAdd transposeM
  have e1 : (a ≤ y ∧ y < a + da ∧ b ≤ x ∧ x < b + db) ↔
      (b ≤ x ∧ x < b + db ∧ a ≤ y ∧ y < a + da) := by tauto
  have e2 : (b ≤ y ∧ y < b + db ∧ a ≤ x ∧ x < a + da) ↔
      (a ≤ x ∧ x < a + da ∧ b ≤ y ∧ y < b + db) := by tauto
  rw [if_congr e1 rfl rfl, if_congr e2 rfl rfl, hS x y]
  by_cases h1 : a ≤ x ∧ x < a + da ∧ b ≤ y ∧ y < b + db <;>
    by_cases h2 : b ≤ x ∧ x < b + db ∧ a ≤ y ∧ y < a + da <;>
      simp [h1, h2] <;> ring

/-- A diagonal block addition with a symmetric block preserves symmetry. -/
theorem blockAdd_diag_symm (H : Mat) (hS : SymmM H) (a d : ℕ) (M : Mat)
    (hM : SymmM M) : SymmM (blockAdd H a a d d M) := by
  intro x y
  unfold blockAdd
  have e1 : (a ≤ y ∧ y < a + d ∧ a ≤ x ∧ x < a + d) ↔
      (a ≤ x ∧ x < a + d ∧ a ≤ y ∧ y < a + d) := by tauto
  rw [if_congr e1 rfl rfl, hS x y, hM (x - a) (y - a)]

/-- `Jᵀ W J` is symmetric whenever `W` is. -/
theorem JtWJ_symm (n : ℕ) (J W : Mat) (hW : SymmM W) :
    SymmM (matMulR n (matMulR n (transposeM J) W) J) := by
  intro x y
  unfold matMulR transposeM
  calc (∑ p ∈ Finset.range n, (∑ q ∈ Finset.range n, J q x * W q p) * J p y)
      = ∑ p ∈ Finset.range n, ∑ q ∈ Finset.range n, J q x * W q p * J p y := by
        exact Finset.sum_congr rfl (fun p _ => Finset.sum_mul _ _ _)
    _ = ∑ q ∈ Finset.range n, ∑ p ∈ Finset.range n, J q x * W q p * J p y :=
        Finset.sum_comm
    _ = ∑ p ∈ Finset.range n, ∑ q ∈ Finset.range n, J q y * W q p * J p x := by
        apply Finset.sum_congr rfl
        intro i _
        apply Finset.sum_congr rfl
        intro j _
        rw [hW i j]
        ring
    _ = ∑ p ∈ Finset.range n, (∑ q ∈ Finset.range n, J q y * W q p) * J p x := by
        exact Finset.sum_congr rfl (fun p _ => (Finset.sum_mul _ _ _).symm)

/-- The mirrored `j`-loop preserves symmetry. -/
theorem mirrorAccum_symm (resDim : ℕ) (vi : EVertexInfo) (JtW : Mat)
    (rest : List (EVertexInfo × Mat)) :
    ∀ H : Mat, SymmM H → SymmM (mirrorAccum resDim vi JtW rest H) := by
  induction rest with
  | nil => intro H hS; exact hS
  | cons p rest ih =>
      intro H hS
      obtain ⟨vj, Jj⟩ := p
      by_cases hf : vj.fixed = true
      · simpa [mirrorAccum, hf] using ih H hS
      · have hf' : vj.fixed = false := by simpa using hf
        simp only [mirrorAccum, hf', Bool.false_eq_true, if_false]
        exact ih _ (blockAdd_pair_symm H hS vi.ordId vj.ordId vi.dim vj.dim _)

/-- One row of the edge accumulation preserves symmetry when the robust
information matrix is symmetric. -/
theorem rowAccumH_symm (resDim : ℕ) (vi : EVertexInfo) (Ji W : Mat)
    (hW : SymmM W) (rest : List (EVertexInfo × Mat)) (H : Mat) (hS : SymmM H) :
    SymmM (rowAccumH resDim vi Ji W rest H) := by
  unfold rowAccumH
  exact mirrorAccum_symm resDim vi _ rest _
    (blockAdd_diag_symm H hS vi.ordId vi.dim _ (JtWJ_symm resDim Ji W hW))

/-- The whole edge accumulation preserves symmetry. -/
theorem edgeAccumH_symm (resDim : ℕ) (W : Mat) (hW : SymmM W)
    (pieces : List (EVertexInfo × Mat)) :
    ∀ H : Mat, SymmM H → SymmM (edgeAccumH resDim W pieces H) := by
  induction pieces with
  | nil => intro H hS; exact hS
  | cons p rest ih =>
      intro H hS
      obtain ⟨vi, Ji⟩ := p
      by_cases hf : vi.fixed = true
      · simpa [edgeAccumH, hf] using ih H hS
      · have hf' : vi.fixed = false := by simpa using hf
        simp only [edgeAccumH, hf', Bool.false_eq_true, if_false]
        exact ih _ (rowAccumH_symm resDim vi Ji W hW rest H hS)

/-- Masking fixed-pose rows and columns preserves symmetry. -/
theorem maskPrior_symm (l : List (ℕ × ℕ)) :
    ∀ P : Mat, SymmM P → SymmM (maskPrior l P) := by
  induction l with
  | nil => intro P hP; exact hP
  | cons q rest ih =>
      intro P hP
      obtain ⟨idx, dim⟩ := q
      simp only [maskPrior]
      apply ih
      intro x y
      have e1 : ((idx ≤ x ∧ x < idx + dim) ∨ (idx ≤ y ∧ y < idx + dim)) ↔
          ((idx ≤ y ∧ y < idx + dim) ∨ (idx ≤ x ∧ x < idx + dim)) := by tauto
      show (if (idx ≤ x ∧ x < idx + dim) ∨ (idx ≤ y ∧ y < idx + dim) then 0 else P x y)
        = (if (idx ≤ y ∧ y < idx + dim) ∨ (idx ≤ x ∧ x < idx + dim) then 0 else P y x)
      rw [if_congr e1 rfl rfl, hP x y]

/-- Claim C6: the assembled Hessian is symmetric for every graph and
linearization point: each per-edge off-diagonal block is written once and
mirrored once, the diagonal blocks `Jᵀ W̃ J` are symmetric because the robust
information matrices are, and the masked prior fold-in preserves symmetry
provided the stored prior is symmetric. -/
theorem C6_hessian_symmetric (edges : List EEdge) (priorRows orderingPoses : ℕ)
    (HPrior : Mat) (bPrior : Vec) (fixedPoses : List (ℕ × ℕ))
    (hW : ∀ e ∈ edges, SymmM e.robustInfo) (hP : SymmM HPrior) :
    SymmM (makeHessianSingle edges priorRows HPrior bPrior fixedPoses orderingPoses).1 := by
  unfold makeHessianSingle
  have hfold : ∀ (acc : Mat × Vec), SymmM acc.1 →
      SymmM ((edges.foldl
        (fun (acc : Mat × Vec) e =>
          (edgeAccumH e.resDim e.robustInfo e.pieces acc.1,
           edgeAccumB e.resDim e.drho e.information e.residual e.pieces acc.2))
        acc).1) := by
    clear hP
    induction edges with
    | nil => intro acc h; exact h
    | cons e rest ih =>
        intro acc h
        have he : SymmM e.robustInfo := hW e (List.mem_cons_self e rest)
        have hW' : ∀ e' ∈ rest, SymmM e'.robustInfo :=
          fun e' h' => hW e' (List.mem_cons_of_mem e h')
        exact ih hW' _ (edgeAccumH_symm e.resDim e.robustInfo he e.pieces acc.1 h)
  have hbase : SymmM ((fun _ _ => 0 : Mat)) := fun _ _ => rfl
  by_cases hpr : 0 < priorRows
  · simp only [hpr, if_true]
    exact blockAdd_diag_symm _ (hfold _ hbase) 0 orderingPoses _
      (maskPrior_symm fixedPoses HPrior hP)
  · simp only [hpr, if_false]
    exact hfold _ hbase

/-- Concrete edge for the C6 witness: two non-fixed 1-dim vertices at offsets
0 and 1, scalar Jacobians 1 and 2, unit information. -/
def edgeC6 : EEdge :=
  { pieces := [(⟨0, 1, false⟩, fun _ _ => 1), (⟨1, 1, false⟩, fun _ _ => 2)],
    resDim := 1, information := fun _ _ => 1, robustInfo := fun _ _ => 1,
    drho := 1, residual := fun _ => 3 }

/-- Witness for C6 at a concrete one-edge graph with no prior. -/
theorem C6_hessian_symmetric_witness :
    (∀ e ∈ [edgeC6], SymmM e.robustInfo) ∧
    SymmM (fun _ _ => (0 : ℚ)) ∧
    SymmM (makeHessianSingle [edgeC6] 0 (fun _ _ => 0) (fun _ => 0) [] 0).1 :=
  ⟨fun e he => by rw [List.mem_singleton.mp he]; exact fun r c => rfl,
   fun r c => rfl,
   C6_hessian_symmetric [edgeC6] 0 0 (fun _ _ => 0) (fun _ => 0) []
     (fun e he => by rw [List.mem_singleton.mp he]; exact fun r c => rfl)
     (fun r c => rfl)⟩

/-! ### C5 : `Problem::UpdateStates` / `Problem::RollbackStates`
(problem.cc lines 890-931)

`UpdateStates` backs up every vertex's parameters and retracts it by the
`delta_x_` segment at its ordering offset (the retraction `Plus` is the
external manifold operation, passed as an oracle indexed by the vertex's
position); if a prior is present (`err_prior_.rows() > 0`) it backs up
`b_prior_` / `err_prior_` and applies the first-order update
`b_prior_ -= H_prior_ * delta_x_.head(ordering_poses_)`,
`err_prior_ = -Jt_prior_inv_ * b_prior_.head(ordering_poses_ - 15)`.
`RollbackStates` restores every vertex from its backup and, if a prior is
present, restores `b_prior_` and `err_prior_` from their backups.
Parameter vectors are `List ℚ`, the prior matrices row-lists. -/

/-- Dot product of two rational lists (shorter length wins). -/
def dotL (u v : List ℚ) : ℚ := (List.zipWith (fun a b => a * b) u v).sum

/-- Matrix-vector product for row-list matrices. -/
def matVecL (M : List (List ℚ)) (v : List ℚ) : List ℚ := M.map (fun row => dotL row v)

/-- Pointwise list difference. -/
def subL (u v : List ℚ) : List ℚ := List.zipWith (fun a b => a - b) u v

/-- Pointwise list negation. -/
def negL (u : List ℚ) : List ℚ := u.map (fun x => -x)

/-- `v.segment(r, d)`. -/
def segL (v : List ℚ) (r d : ℕ) : List ℚ := (v.drop r).take d

/-- The vertex state seen by the updater: current parameters, the backup
copy, and the ordering offset and local dimension. -/
structure PVertex where
  params : List ℚ
  backupParams : List ℚ
  ordId : ℕ
  dim : ℕ

/-- `Vertex::BackUpParameters`. -/
def backUpParameters (v : PVertex) : PVertex := { v with backupParams := v.params }

/-- `Vertex::Plus` via the external retraction oracle `plus` (indexed by the
vertex's position in the walk). -/
def vertexPlus (plus : ℕ → List ℚ → List ℚ → List ℚ) (i : ℕ) (v : PVertex)
    (delta : List ℚ) : PVertex :=
  { v with params := plus i v.params delta }

/-- `Vertex::RollBackParameters`. -/
def rollBackParameters (v : PVertex) : PVertex := { v with params := v.backupParams }

/-- The problem members read or written by `UpdateStates`/`RollbackStates`,
plus representative members they must leave alone. -/
structure UState where
  vertices : List PVertex
  deltaX : List ℚ
  bPrior : List ℚ
  errPrior : List ℚ
  bPriorBackup : List ℚ
  errPriorBackup : List ℚ
  HPrior : List (List ℚ)
  JtPriorInv : List (List ℚ)
  orderingPoses : ℕ
  hessianStore : Mat
  bStore : Vec
  currentLambda : ℚ
  currentChi : ℚ

/-- The vertex loop of `UpdateStates`: back up, then retract by the
`delta_x_` segment at the vertex's ordering offset. -/
def updateVertices (plus : ℕ → List ℚ → List ℚ → List ℚ) (deltaX : List ℚ) :
    ℕ → List PVertex → List PVertex
  | _, [] => []
  | i, v :: rest =>
      vertexPlus plus i (backUpParameters v) (segL deltaX v.ordId v.dim) ::
        updateVertices plus deltaX (i + 1) rest

/-- `Problem::UpdateStates` (problem.cc lines 890-917). -/
def updateStates (plus : ℕ → List ℚ → List ℚ → List ℚ) (s : UState) : UState :=
  let verts := updateVertices plus s.deltaX 0 s.vertices
  if 0 < s.errPrior.length then
    let bp := subL s.bPrior (matVecL s.HPrior (s.deltaX.take s.orderingPoses))
    { s with
      vertices := verts,
      bPriorBackup := s.bPrior, errPriorBackup := s.errPrior,
      bPrior := bp,
      errPrior := negL (matVecL s.JtPriorInv (bp.take (s.orderingPoses - 15))) }
  else { s with vertices := verts }

/-- `Problem::RollbackStates` (problem.cc lines 919-931). -/
def rollbackStates (s : UState) : UState :=
  let verts := s.vertices.map rollBackParameters
  if 0 < s.errPrior.length then
    { s with
      vertices := verts, bPrior := s.bPriorBackup, errPrior := s.errPriorBackup }
  else { s with vertices := verts }

/-- Rolling back the updated vertex list restores every parameter vector and
leaves offsets, dimensions and backups equal to the post-update values. -/
theorem updateVertices_rollback (plus : ℕ → List ℚ → List ℚ → List ℚ)
    (deltaX : List ℚ) (vs : List PVertex) :
    ∀ i : ℕ,
    ((updateVertices plus deltaX i vs).map rollBackParameters).map
        (fun v => v.params) = vs.map (fun v => v.params) ∧
    ((updateVertices plus deltaX i vs).map rollBackParameters).map
        (fun v => (v.ordId, v.dim, v.backupParams)) =
      (updateVertices plus deltaX i vs).map
        (fun v => (v.ordId, v.dim, v.backupParams)) := by
  induction vs with
  | nil => intro i; exact ⟨rfl, rfl⟩
  | cons v rest ih =>
      intro i
      obtain ⟨h1, h2⟩ := ih (i + 1)
      constructor
      · simp only [updateVertices, List.map_cons, h1]
        rfl
      · simp only [updateVertices, List.map_cons, h2]
        rfl

/-- The length of `-M * w` is the number of rows of `M`. -/
theorem negL_matVecL_length (M : List (List ℚ)) (w : List ℚ) :
    (negL (matVecL M w)).length = M.length := by
  simp [negL, matVecL]

/-- Claim C5: rollback exactly undoes an update.  Under the invariant that
`err_prior_` has as many rows as `Jt_prior_inv_` (which both `Marginalize`
and `UpdateStates` itself maintain), `rollback_states` after `update_states`
restores every vertex's parameter vector, `b_prior_` and `err_prior_`, and
changes nothing else: the Hessian, `b_`, `delta_x_`, `lambda`, `chi`, the
prior matrices, the ordering sizes, the vertex offsets/dimensions/backups
and the prior backups all keep their post-update values. -/
theorem C5_rollback_undoes_update (plus : ℕ → List ℚ → List ℚ → List ℚ)
    (s : UState) (hJt : s.errPrior.length = s.JtPriorInv.length) :
    ((rollbackStates (updateStates plus s)).vertices.map (fun v => v.params) =
        s.vertices.map (fun v => v.params) ∧
      (rollbackStates (updateStates plus s)).bPrior = s.bPrior ∧
      (rollbackStates (updateStates plus s)).errPrior = s.errPrior) ∧
    ((rollbackStates (updateStates plus s)).vertices.map
          (fun v => (v.ordId, v.dim, v.backupParams)) =
        (updateStates plus s).vertices.map
          (fun v => (v.ordId, v.dim, v.backupParams)) ∧
      (rollbackStates (updateStates plus s)).deltaX = (updateStates plus s).deltaX ∧
      (rollbackStates (updateStates plus s)).bPriorBackup =
        (updateStates plus s).bPriorBackup ∧
      (rollbackStates (updateStates plus s)).errPriorBackup =
        (updateStates plus s).errPriorBackup ∧
      (rollbackStates (updateStates plus s)).HPrior = (updateStates plus s).HPrior ∧
      (rollbackStates (updateStates plus s)).JtPriorInv =
        (updateStates plus s).JtPriorInv ∧
      (rollbackStates (updateStates plus s)).orderingPoses =
        (updateStates plus s).orderingPoses ∧
      (rollbackStates (updateStates plus s)).hessianStore =
        (updateStates plus s).hessianStore ∧
      (rollbackStates (updateStates plus s)).bStore = (updateStates plus s).bStore ∧
      (rollbackStates (updateStates plus s)).currentLambda =
        (updateStates plus s).currentLambda ∧
      (rollbackStates (updateStates plus s)).currentChi =
        (updateStates plus s).currentChi) := by
  obtain ⟨hparams, hframe⟩ := updateVertices_rollback plus s.deltaX s.vertices 0
  by_cases hp : 0 < s.errPrior.length
  · have hlen : 0 < (updateStates plus s).errPrior.length := by
      simp only [updateStates, hp, if_true]
      rw [negL_matVecL_length]
      omega
    have hup : updateStates plus s =
        { s with
          vertices := updateVertices plus s.deltaX 0 s.vertices,
          bPriorBackup := s.bPrior, errPriorBackup := s.errPrior,
          bPrior := subL s.bPrior (matVecL s.HPrior (s.deltaX.take s.orderingPoses)),
          errPrior := negL (matVecL s.JtPriorInv
            ((subL s.bPrior (matVecL s.HPrior
              (s.deltaX.take s.orderingPoses))).take (s.orderingPoses - 15))) } := by
      simp only [updateStates, hp, if_true]
    have hroll : rollbackStates (updateStates plus s) =
        { updateStates plus s with
          vertices := (updateStates plus s).vertices.map rollBackParameters,
          bPrior := (updateStates plus s).bPriorBackup,
          errPrior := (updateStates plus s).errPriorBackup } := by
      simp only [rollbackStates, hlen, if_true]
    rw [hroll, hup]
    exact ⟨⟨hparams, rfl, rfl⟩, hframe, rfl, rfl, rfl, rfl, rfl, rfl, rfl, rfl, rfl, rfl⟩
  · have hp0 : s.errPrior.length = 0 := by omega
    have hup : updateStates plus s =
        { s with
          vertices := updateVertices plus s.deltaX 0 s.vertices } := by
      simp only [updateStates, hp, if_false]
    have hlen : ¬ (0 < (updateStates plus s).errPrior.length) := by
      rw [hup]
      simpa using hp
    have hroll : rollbackStates (updateStates plus s) =
        { updateStates plus s with
          vertices := (updateStates plus s).vertices.map rollBackParameters } := by
      simp only [rollbackStates, hlen, if_false]
    rw [hroll, hup]
    exact ⟨⟨hparams, rfl, rfl⟩, hframe, rfl, rfl, rfl, rfl, rfl, rfl, rfl, rfl, rfl, rfl⟩

/-- A concrete retraction oracle for the C5 witness: vector addition. -/
def plusC5 : ℕ → List ℚ → List ℚ → List ℚ :=
  fun _ p d => List.zipWith (fun a b => a + b) p d

/-- A concrete problem state with one 2-dim vertex and a 1-row prior. -/
def sC5 : UState :=
  { vertices := [⟨[1, 2], [], 0, 2⟩],
    deltaX := [5, 7],
    bPrior := [3], errPrior := [4], bPriorBackup := [], errPriorBackup := [],
    HPrior := [[2]], JtPriorInv := [[6]],
    orderingPoses := 1,
    hessianStore := fun _ _ => 0, bStore := fun _ => 0,
    currentLambda := 1, currentChi := 2 }

/-- Witness for C5 at a concrete state with a non-empty prior. -/
theorem C5_rollback_undoes_update_witness :
    sC5.errPrior.length = sC5.JtPriorInv.length ∧
    ((rollbackStates (updateStates plusC5 sC5)).vertices.map (fun v => v.params) =
        sC5.vertices.map (fun v => v.params) ∧
      (rollbackStates (updateStates plusC5 sC5)).bPrior = sC5.bPrior ∧
      (rollbackStates (updateStates plusC5 sC5)).errPrior = sC5.errPrior) :=
  ⟨rfl, (C5_rollback_undoes_update plusC5 sC5 rfl).1⟩

/-! ### C8 : the Dog-Leg interior case (problem.cc lines 859-887)

After solving for `h_gn_`, `SolveDogLegStep` computes
`alpha_ = b_.squaredNorm() / (b_^T Hessian_ b_)` and `h_sd_ = b_`, then
selects the step: `h_gn_` when `‖h_gn‖ ≤ Δ`, the scaled steepest-descent
step when `alpha_ * ‖h_sd‖ ≥ Δ`, and otherwise the interior interpolation
with `a = alpha h_sd`, `c = aᵀ(h_gn − a)`, `β = (−c + √disc)/‖h_gn − a‖²`
when `c ≤ 0` and `(Δ² − ‖a‖²)/(c + √disc)` otherwise, guarded by
`assert(0 < β < 1)`.  Norms and the square root are irrational, so the
embedding takes them as rational witnesses constrained by hypotheses
(`ngn² = ‖h_gn‖²`, `nsd² = ‖h_sd‖²`, `s² = disc`, all nonnegative). -/

/-- `alpha_ = b_.squaredNorm() / (b_.transpose() * Hessian_ * b_)`
(problem.cc line 860). -/
def dlAlpha (n : ℕ) (He : Mat) (b : Vec) : ℚ :=
  sqNorm n b / dotR n b (matVecR n He b)

/-- `a = alpha_ * h_sd_` with `h_sd_ = b_` (problem.cc lines 861, 874). -/
def dlA (n : ℕ) (He : Mat) (b : Vec) : Vec := smulV (dlAlpha n He b) b

/-- `c = a.transpose() * (b - a)` where the local `b` is `h_gn_`
(problem.cc line 876). -/
def dlC (n : ℕ) (He : Mat) (b hgn : Vec) : ℚ :=
  dotR n (dlA n He b) (subV hgn (dlA n He b))

/-- `(b - a).squaredNorm()` (problem.cc lines 877-879). -/
def dlD (n : ℕ) (He : Mat) (b hgn : Vec) : ℚ :=
  sqNorm n (subV hgn (dlA n He b))

/-- The argument of the square root in `sqrt_scale`
(problem.cc line 877): `c² + ‖b−a‖² (Δ² − ‖a‖²)`. -/
def dlDisc (n : ℕ) (He : Mat) (b hgn : Vec) (Delta : ℚ) : ℚ :=
  dlC n He b hgn ^ 2 +
    dlD n He b hgn * (Delta ^ 2 - sqNorm n (dlA n He b))

/-- `beta_` as computed from the square-root witness `s` (problem.cc
lines 878-883). -/
def dlBeta (n : ℕ) (He : Mat) (b hgn : Vec) (Delta s : ℚ) : ℚ :=
  if dlC n He b hgn ≤ 0 then (-(dlC n He b hgn) + s) / dlD n He b hgn
  else (Delta ^ 2 - sqNorm n (dlA n He b)) / (dlC n He b hgn + s)

/-- The interior case guard (problem.cc lines 866-872): not
`‖h_gn‖ ≤ Δ` and not `alpha * ‖h_sd‖ ≥ Δ`. -/
def dlInterior (n : ℕ) (He : Mat) (b : Vec) (Delta ngn nsd : ℚ) : Prop :=
  ¬ (ngn ≤ Delta) ∧ ¬ (dlAlpha n He b * nsd ≥ Delta)

/-- The Hessian of the C8 counterexample: `diag(3/4, -4/3)` — an indefinite
matrix, as can be assembled from an edge whose robust information matrix is
indefinite (nothing in the source enforces positive semidefiniteness). -/
def HeC8 : Mat := fun i j =>
  if i = 0 ∧ j = 0 then 3/4 else if i = 1 ∧ j = 1 then -4/3 else 0

/-- `b_` of the C8 counterexample. -/
def bC8 : Vec := fun i => if i = 0 then 3 else if i = 1 then 4 else 0

/-- `h_gn_` of the C8 counterexample: the exact solution of `H h_gn = b`. -/
def hgnC8 : Vec := fun i => if i = 0 then 4 else if i = 1 then -3 else 0

/-- Claim C8 counterexample: a 2-dimensional state with an indefinite
Hessian.  `h_gn` solves `H h_gn = b` exactly, `‖h_gn‖ = 5`, `‖h_sd‖ = 5`,
`Δ = 4`; the interior-case guard holds (`‖h_gn‖ > Δ` and
`alpha ‖h_sd‖ = -60/7 < Δ`), yet the discriminant under the square root is
negative (`-627200/2401`), so no rational (or real) `s` with `s² = disc`
exists: `sqrt` returns NaN in IEEE arithmetic, `beta_` is NaN, and the
assertion `0 < beta_ < 1` fails. -/
theorem C8_counterexample :
    (matVecR 2 HeC8 hgnC8 0 = bC8 0 ∧ matVecR 2 HeC8 hgnC8 1 = bC8 1) ∧
    (5 : ℚ) ^ 2 = sqNorm 2 hgnC8 ∧
    (5 : ℚ) ^ 2 = sqNorm 2 bC8 ∧
    dlInterior 2 HeC8 bC8 4 5 5 ∧
    dlDisc 2 HeC8 bC8 hgnC8 4 < 0 := by
  refine ⟨⟨?_, ?_⟩, ?_, ?_, ⟨?_, ?_⟩, ?_⟩
  · unfold matVecR HeC8 hgnC8 bC8
    norm_num [Finset.sum_range_succ]
  · unfold matVecR HeC8 hgnC8 bC8
    norm_num [Finset.sum_range_succ]
  · unfold sqNorm dotR hgnC8
    simp [Finset.sum_range_succ]
    norm_num
  · unfold sqNorm dotR bC8
    simp [Finset.sum_range_succ]
    norm_num
  · norm_num
  · unfold dlAlpha sqNorm dotR matVecR HeC8 bC8
    simp [Finset.sum_range_succ]
    norm_num
  · unfold dlDisc dlC dlD dlA dlAlpha sqNorm dotR matVecR smulV subV HeC8 bC8 hgnC8
    simp [Finset.sum_range_succ]
    norm_num

/-- Squared norms are nonnegative. -/
theorem sqNorm_nonneg (n : ℕ) (v : Vec) : 0 ≤ sqNorm n v := by
  unfold sqNorm dotR
  exact Finset.sum_nonneg (fun _ _ => mul_self_nonneg _)

/-- `‖c • v‖² = c² ‖v‖²`. -/
theorem sqNorm_smulV (n : ℕ) (c : ℚ) (v : Vec) :
    sqNorm n (smulV c v) = c ^ 2 * sqNorm n v := by
  unfold sqNorm dotR smulV
  rw [Finset.mul_sum]
  apply Finset.sum_congr rfl
  intro i _
  ring

/-- `‖p‖² = ‖a‖² + 2 aᵀ(p−a) + ‖p−a‖²`. -/
theorem sqNorm_expand (n : ℕ) (p a : Vec) :
    sqNorm n p = sqNorm n a + 2 * dotR n a (subV p a) + sqNorm n (subV p a) := by
  unfold sqNorm dotR subV
  rw [Finset.mul_sum, ← Finset.sum_add_distrib, ← Finset.sum_add_distrib]
  apply Finset.sum_congr rfl
  intro i _
  ring

/-- A vector of zero squared norm is orthogonal to everything. -/
theorem dot_eq_zero_of_sqNorm_eq_zero (n : ℕ) (a w : Vec) (h : sqNorm n w = 0) :
    dotR n a w = 0 := by
  have hz : ∀ i ∈ Finset.range n, w i * w i = 0 :=
    (Finset.sum_eq_zero_iff_of_nonneg (fun i _ => mul_self_nonneg (w i))).mp h
  unfold dotR
  apply Finset.sum_eq_zero
  intro i hi
  rw [mul_self_eq_zero.mp (hz i hi), mul_zero]

/-- The scalar core of the interior-case analysis: with `0 < D`,
`‖a‖² < Δ² < ‖p‖²` and the expansion identity, the computed `beta` lies in
`(0, 1)` for any nonnegative square root `s` of the discriminant. -/
theorem dogleg_beta_bounds (c D na2 p2 Delta s : ℚ)
    (hD : 0 < D) (hna2 : na2 < Delta ^ 2) (hp2 : Delta ^ 2 < p2)
    (hiden : p2 = na2 + 2 * c + D) (hs : 0 ≤ s)
    (hs2 : s ^ 2 = c ^ 2 + D * (Delta ^ 2 - na2)) :
    0 < (if c ≤ 0 then (-c + s) / D else (Delta ^ 2 - na2) / (c + s)) ∧
    (if c ≤ 0 then (-c + s) / D else (Delta ^ 2 - na2) / (c + s)) < 1 := by
  have hE : 0 < Delta ^ 2 - na2 := by linarith
  by_cases hc : c ≤ 0
  · rw [if_pos hc]
    have hclt : c ^ 2 < s ^ 2 := by nlinarith [mul_pos hD hE]
    have hspos : -c < s := by nlinarith
    constructor
    · exact div_pos (by linarith) hD
    · rw [div_lt_one hD]
      have hDc : 0 < D + c := by linarith
      have key : (D + c) ^ 2 - s ^ 2 = D * (p2 - Delta ^ 2) := by
        rw [hs2, hiden]
        ring
      have h2 : s ^ 2 < (D + c) ^ 2 := by
        nlinarith [mul_pos hD (show (0 : ℚ) < p2 - Delta ^ 2 by linarith)]
      have h3 : s < D + c := by nlinarith
      linarith
  · push_neg at hc
    rw [if_neg (not_le.mpr hc)]
    have hden : 0 < c + s := by linarith
    constructor
    · exact div_pos hE hden
    · rw [div_lt_one hden]
      by_contra hle
      push_neg at hle
      have h1 : s ≤ (Delta ^ 2 - na2) - c := by linarith
      have h2 : s ^ 2 ≤ ((Delta ^ 2 - na2) - c) ^ 2 := by nlinarith
      have h3 : D + 2 * c ≤ Delta ^ 2 - na2 := by nlinarith
      linarith

/-- Claim C8 (amended): whenever the interior case is taken *and* the
quadratic form `bᵀ H b` is positive (true for the positive-semidefinite
Hessians produced by assembly unless `b` is in the kernel — but not enforced
by the source, see the counterexample), the discriminant is positive and the
computed `beta` lies strictly between 0 and 1, so the assertion never
fires. -/
theorem C8_dogleg_beta_in_unit_interval (n : ℕ) (He : Mat) (b hgn : Vec)
    (Delta ngn nsd s : ℚ)
    (hQ : 0 < dotR n b (matVecR n He b))
    (hngn2 : ngn ^ 2 = sqNorm n hgn)
    (hnsd : 0 ≤ nsd) (hnsd2 : nsd ^ 2 = sqNorm n b)
    (hint : dlInterior n He b Delta ngn nsd)
    (hs : 0 ≤ s) (hs2 : s ^ 2 = dlDisc n He b hgn Delta) :
    0 < dlDisc n He b hgn Delta ∧
    0 < dlBeta n He b hgn Delta s ∧ dlBeta n He b hgn Delta s < 1 := by
  obtain ⟨hg, ha⟩ := hint
  push_neg at hg ha
  have halpha : 0 ≤ dlAlpha n He b :=
    div_nonneg (sqNorm_nonneg n b) (le_of_lt hQ)
  have hna2 : sqNorm n (dlA n He b) = (dlAlpha n He b * nsd) ^ 2 := by
    show sqNorm n (smulV (dlAlpha n He b) b) = _
    rw [sqNorm_smulV, ← hnsd2]
    ring
  have hΔpos : 0 < Delta := lt_of_le_of_lt (mul_nonneg halpha hnsd) ha
  have hna2lt : sqNorm n (dlA n He b) < Delta ^ 2 := by
    rw [hna2]
    have h1 : 0 ≤ dlAlpha n He b * nsd := mul_nonneg halpha hnsd
    nlinarith
  have hp2 : Delta ^ 2 < sqNorm n hgn := by
    rw [← hngn2]
    have hng : 0 ≤ ngn := le_trans (le_of_lt hΔpos) (le_of_lt hg)
    nlinarith
  have hiden : sqNorm n hgn =
      sqNorm n (dlA n He b) + 2 * dlC n He b hgn + dlD n He b hgn :=
    sqNorm_expand n hgn (dlA n He b)
  have hDnn : 0 ≤ dlD n He b hgn := sqNorm_nonneg n _
  have hD : 0 < dlD n He b hgn := by
    rcases lt_or_eq_of_le hDnn with h | h
    · exact h
    · exfalso
      have hc0 : dlC n He b hgn = 0 :=
        dot_eq_zero_of_sqNorm_eq_zero n (dlA n He b) (subV hgn (dlA n He b)) h.symm
      rw [hc0, ← h] at hiden
      nlinarith
  have hs2' : s ^ 2 = dlC n He b hgn ^ 2 +
      dlD n He b hgn * (Delta ^ 2 - sqNorm n (dlA n He b)) := hs2
  have hbounds := dogleg_beta_bounds (dlC n He b hgn) (dlD n He b hgn)
    (sqNorm n (dlA n He b)) (sqNorm n hgn) Delta s hD hna2lt hp2 hiden hs hs2'
  refine ⟨?_, hbounds.1, hbounds.2⟩
  show 0 < dlC n He b hgn ^ 2 +
    dlD n He b hgn * (Delta ^ 2 - sqNorm n (dlA n He b))
  nlinarith [sq_nonneg (dlC n He b hgn), mul_pos hD (show (0:ℚ) <
    Delta ^ 2 - sqNorm n (dlA n He b) by linarith)]

/-- Witness for C8 at a concrete positive-definite state: `H = I₂`,
`b = (3,4)`, `h_gn = (0, 25/4)`, `Δ = 41/8`, `‖h_gn‖ = 25/4`, `‖h_sd‖ = 5`,
`s = 135/32`; `beta = 3/10 ∈ (0,1)`. -/
theorem C8_dogleg_beta_witness :
    0 < dlDisc 2 (fun i j => if i = j then 1 else 0)
      (fun i => if i = 0 then 3 else if i = 1 then 4 else 0)
      (fun i => if i = 1 then 25/4 else 0) (41/8) ∧
    0 < dlBeta 2 (fun i j => if i = j then 1 else 0)
      (fun i => if i = 0 then 3 else if i = 1 then 4 else 0)
      (fun i => if i = 1 then 25/4 else 0) (41/8) (135/32) ∧
    dlBeta 2 (fun i j => if i = j then 1 else 0)
      (fun i => if i = 0 then 3 else if i = 1 then 4 else 0)
      (fun i => if i = 1 then 25/4 else 0) (41/8) (135/32) < 1 :=
  C8_dogleg_beta_in_unit_interval 2 (fun i j => if i = j then 1 else 0)
    (fun i => if i = 0 then 3 else if i = 1 then 4 else 0)
    (fun i => if i = 1 then 25/4 else 0) (41/8) (25/4) 5 (135/32)
    (by unfold dotR matVecR; norm_num [Finset.sum_range_succ])
    (by unfold sqNorm dotR; simp [Finset.sum_range_succ]; norm_num)
    (by norm_num)
    (by unfold sqNorm dotR; simp [Finset.sum_range_succ]; norm_num)
    (by constructor
        · norm_num
        · unfold dlAlpha sqNorm dotR matVecR
          norm_num [Finset.sum_range_succ])
    (by norm_num)
    (by unfold dlDisc dlC dlD dlA dlAlpha sqNorm dotR matVecR smulV subV
        simp [Finset.sum_range_succ]
        norm_num)

/-! ### C9 : the prior construction at the end of `Problem::Marginalize`
(problem.cc lines 1290-1322)

After the landmark Schur elimination, the prior fold-in and the row/column
rotation, the code: symmetrizes the bottom-right `m2 × m2` block as
`Amm = ½(A + Aᵀ)`; inverts it through `SelfAdjointEigenSolver` zeroing
eigenvalues ≤ `eps = 1e-8`; Schur-complements the marginalized block out of
`H_marg`, `b_marg`; eigendecomposes the resulting `H_prior` dropping
eigenvalues ≤ `1e-8`; stores `Jt_prior_inv = √S⁻¹ Vᵀ` and
`err_prior = -Jt_prior_inv · b_prior`; reconstructs `H_prior = Jᵀ J` with
`J = √S Vᵀ` and zeroes entries of magnitude ≤ `1e-9`.  The eigensolver and
the entrywise square roots are external, so they enter as oracles: `V1, ev1`
is an orthonormal eigensystem of the symmetrized block, `V2, ev2` one of the
raw new prior, and `rS, rSinv` are the entrywise square roots of the
truncated spectrum and its inverse. -/

/-- `eps = 1e-8` (problem.cc line 1290). -/
def margEps : ℚ := 1e-8

/-- `Amm = 0.5 * (block + blockᵀ)` for the bottom-right `m2 × m2` block at
offset `n2` (problem.cc line 1293). -/
def ammSym (HM : Mat) (n2 : ℕ) : Mat :=
  fun x y => (HM (n2 + x) (n2 + y) + HM (n2 + y) (n2 + x)) / 2

/-- `(ev.array() > eps).select(ev.array().inverse(), 0)`. -/
def truncInv (ev : Vec) : Vec := fun i => if ev i > margEps then (ev i)⁻¹ else 0

/-- `(ev.array() > eps).select(ev.array(), 0)` — the kept spectrum `S`. -/
def truncKeep (ev : Vec) : Vec := fun i => if ev i > margEps then ev i else 0

/-- `V * diag(d) * Vᵀ` entrywise over an `n`-dimensional eigenbasis. -/
def eigenRecon (V : Mat) (d : Vec) (n : ℕ) : Mat :=
  fun x y => ∑ k ∈ Finset.range n, V x k * d k * V y k

/-- `Amm_inv = V diag(truncInv ev) Vᵀ` (problem.cc lines 1295-1298). -/
def ammInv (V1 : Mat) (ev1 : Vec) (m2 : ℕ) : Mat := eigenRecon V1 (truncInv ev1) m2

/-- `tempB = Arm * Amm_inv` (problem.cc line 1305). -/
def margTempB (HM V1 : Mat) (ev1 : Vec) (n2 m2 : ℕ) : Mat :=
  matMulR m2 (fun x y => HM x (n2 + y)) (ammInv V1 ev1 m2)

/-- `H_prior_ = Arr - tempB * Amr` (problem.cc line 1306). -/
def hPriorRaw (HM V1 : Mat) (ev1 : Vec) (n2 m2 : ℕ) : Mat :=
  fun x y => HM x y - matMulR m2 (margTempB HM V1 ev1 n2 m2) (fun u v => HM (n2 + u) v) x y

/-- `b_prior_ = brr - tempB * bmm2` (problem.cc line 1307). -/
def bPriorOut (HM V1 : Mat) (ev1 : Vec) (bM : Vec) (n2 m2 : ℕ) : Vec :=
  fun i => bM i - matVecR m2 (margTempB HM V1 ev1 n2 m2) (fun u => bM (n2 + u)) i

/-- `Jt_prior_inv_ = S_inv_sqrt.asDiagonal() * V2ᵀ` (problem.cc line 1316). -/
def jtPriorInvOut (rSinv : Vec) (V2 : Mat) : Mat := fun x y => rSinv x * V2 y x

/-- `err_prior_ = -Jt_prior_inv_ * b_prior_` (problem.cc line 1317). -/
def errPriorOut (HM V1 : Mat) (ev1 : Vec) (bM : Vec) (rSinv : Vec) (V2 : Mat)
    (n2 m2 : ℕ) : Vec :=
  fun i => -(matVecR n2 (jtPriorInvOut rSinv V2) (bPriorOut HM V1 ev1 bM n2 m2) i)

/-- `J = S_sqrt.asDiagonal() * V2ᵀ` (problem.cc line 1319). -/
def jMarg (rS : Vec) (V2 : Mat) : Mat := fun x y => rS x * V2 y x

/-- `H_prior_ = Jᵀ J` before the entry threshold (problem.cc line 1320). -/
def hPriorRecon (rS : Vec) (V2 : Mat) (n2 : ℕ) : Mat :=
  matMulR n2 (transposeM (jMarg rS V2)) (jMarg rS V2)

/-- `(H_prior_.array().abs() > 1e-9).select(H_prior_, 0)`
(problem.cc line 1321). -/
def hPriorFinal (rS : Vec) (V2 : Mat) (n2 : ℕ) : Mat :=
  fun x y =>
    if |hPriorRecon rS V2 n2 x y| > 1e-9 then hPriorRecon rS V2 n2 x y else 0

/-- Claim C9: the marginalization eigen-truncation pipeline.  Given an
orthonormal eigensystem `(V1, ev1)` of the symmetrized block
`½(A + Aᵀ)` and the square-root oracle `rS` for the truncated spectrum of
the second decomposition: (a) the computed `Amm_inv` acts as the identity on
eigen-directions with eigenvalue above `1e-8` and kills those at or below
it; (b) the reconstructed prior equals the spectral reconstruction
`V2 diag(S) V2ᵀ` with the ≤ `1e-8` eigenvalues dropped; (c) every entry of
magnitude below `1e-9` is zeroed in the stored prior; (d) the stored prior
error is `-√S⁻¹ V2ᵀ · b_prior` row by row. -/
theorem C9_marginalize_prior (HM : Mat) (bM : Vec) (n2 m2 : ℕ)
    (V1 : Mat) (ev1 : Vec) (V2 : Mat) (ev2 : Vec) (rS rSinv : Vec)
    (horth : ∀ i ∈ Finset.range m2, ∀ j ∈ Finset.range m2,
      (∑ k ∈ Finset.range m2, V1 k i * V1 k j) = if i = j then 1 else 0)
    (heig : ∀ i ∈ Finset.range m2, ∀ x ∈ Finset.range m2,
      (∑ y ∈ Finset.range m2, ammSym HM n2 x y * V1 y i) = ev1 i * V1 x i)
    (hrS : ∀ i ∈ Finset.range n2, rS i * rS i = truncKeep ev2 i) :
    (∀ i ∈ Finset.range m2, ∀ x ∈ Finset.range m2,
      (∑ y ∈ Finset.range m2, ammInv V1 ev1 m2 x y *
        (∑ z ∈ Finset.range m2, ammSym HM n2 y z * V1 z i)) =
      (if ev1 i > margEps then V1 x i else 0)) ∧
    (∀ x y, hPriorRecon rS V2 n2 x y = eigenRecon V2 (truncKeep ev2) n2 x y) ∧
    (∀ x y, |hPriorRecon rS V2 n2 x y| < 1e-9 → hPriorFinal rS V2 n2 x y = 0) ∧
    (∀ i, errPriorOut HM V1 ev1 bM rSinv V2 n2 m2 i =
      -(rSinv i * ∑ j ∈ Finset.range n2, V2 j i * bPriorOut HM V1 ev1 bM n2 m2 j)) := by
  refine ⟨?_, ?_, ?_, ?_⟩
  · intro i hi x hx
    have step1 : (∑ y ∈ Finset.range m2, ammInv V1 ev1 m2 x y *
        (∑ z ∈ Finset.range m2, ammSym HM n2 y z * V1 z i)) =
        ∑ y ∈ Finset.range m2, ammInv V1 ev1 m2 x y * (ev1 i * V1 y i) :=
      Finset.sum_congr rfl (fun y hy => by rw [heig i hi y hy])
    rw [step1]
    have step2 : (∑ y ∈ Finset.range m2, ammInv V1 ev1 m2 x y * (ev1 i * V1 y i)) =
        ∑ y ∈ Finset.range m2, ∑ k ∈ Finset.range m2,
          V1 x k * truncInv ev1 k * V1 y k * (ev1 i * V1 y i) :=
      Finset.sum_congr rfl (fun y _ => by
        show (∑ k ∈ Finset.range m2, V1 x k * truncInv ev1 k * V1 y k) *
          (ev1 i * V1 y i) = _
        rw [Finset.sum_mul])
    rw [step2, Finset.sum_comm]
    have step3 : (∑ k ∈ Finset.range m2, ∑ y ∈ Finset.range m2,
        V1 x k * truncInv ev1 k * V1 y k * (ev1 i * V1 y i)) =
        ∑ k ∈ Finset.range m2, V1 x k * truncInv ev1 k * ev1 i *
          (if k = i then 1 else 0) :=
      Finset.sum_congr rfl (fun k hk => by
        rw [show (∑ y ∈ Finset.range m2,
            V1 x k * truncInv ev1 k * V1 y k * (ev1 i * V1 y i)) =
            V1 x k * truncInv ev1 k * ev1 i *
              (∑ y ∈ Finset.range m2, V1 y k * V1 y i) from by
          rw [Finset.mul_sum]
          exact Finset.sum_congr rfl (fun y _ => by ring)]
        rw [horth k hk i hi])
    rw [step3]
    rw [Finset.sum_eq_single i]
    · unfold truncInv
      by_cases hev : ev1 i > margEps
      · rw [if_pos hev, if_pos hev, if_pos rfl]
        have : ev1 i ≠ 0 := by
          have : (0 : ℚ) < margEps := by norm_num [margEps]
          linarith
        field_simp
      · rw [if_neg hev, if_neg hev]
        ring
    · intro k _ hk
      rw [if_neg hk, mul_zero]
    · intro hnot
      exact absurd hi hnot
  · intro x y
    unfold hPriorRecon matMulR transposeM jMarg eigenRecon
    apply Finset.sum_congr rfl
    intro k hk
    have := hrS k hk
    calc rS k * V2 x k * (rS k * V2 y k) = rS k * rS k * (V2 x k * V2 y k) := by ring
      _ = truncKeep ev2 k * (V2 x k * V2 y k) := by rw [this]
      _ = V2 x k * truncKeep ev2 k * V2 y k := by ring
  · intro x y h
    unfold hPriorFinal
    rw [if_neg (by linarith)]
  · intro i
    unfold errPriorOut matVecR jtPriorInvOut
    rw [Finset.mul_sum]
    congr 1
    apply Finset.sum_congr rfl
    intro j _
    ring

/-- Identity eigenvector matrix for the C9 witness. -/
def idMC9 : Mat := fun x y => if x = y then 1 else 0

/-- Constant marginal Hessian for the C9 witness. -/
def hmC9 : Mat := fun _ _ => 2

/-- Eigenvalues of the first decomposition for the C9 witness. -/
def ev1C9 : Vec := fun _ => 2

/-- Eigenvalues of the second decomposition for the C9 witness. -/
def ev2C9 : Vec := fun _ => 4

/-- Square roots of the kept spectrum for the C9 witness. -/
def rsC9 : Vec := fun _ => 2

/-- Witness for C9 with a 1×1 marginalized block and a 1×1 prior:
`Amm = 2`, eigenbasis the identity, new prior spectrum `{4}` with square
root 2. -/
theorem C9_marginalize_prior_witness :
    (∀ i ∈ Finset.range 1, ∀ j ∈ Finset.range 1,
      (∑ k ∈ Finset.range 1, idMC9 k i * idMC9 k j) = if i = j then 1 else 0) ∧
    (∀ i ∈ Finset.range 1, rsC9 i * rsC9 i = truncKeep ev2C9 i) ∧
    (∀ x y, hPriorRecon rsC9 idMC9 1 x y = eigenRecon idMC9 (truncKeep ev2C9) 1 x y) := by
  have horth : ∀ i ∈ Finset.range 1, ∀ j ∈ Finset.range 1,
      (∑ k ∈ Finset.range 1, idMC9 k i * idMC9 k j) = if i = j then 1 else 0 := by
    intro i hi j hj
    have hi0 : i = 0 := by have := Finset.mem_range.mp hi; omega
    have hj0 : j = 0 := by have := Finset.mem_range.mp hj; omega
    subst hi0
    subst hj0
    norm_num [Finset.sum_range_succ, idMC9]
  have heig : ∀ i ∈ Finset.range 1, ∀ x ∈ Finset.range 1,
      (∑ y ∈ Finset.range 1, ammSym hmC9 1 x y * idMC9 y i) = ev1C9 i * idMC9 x i := by
    intro i hi x hx
    have hi0 : i = 0 := by have := Finset.mem_range.mp hi; omega
    have hx0 : x = 0 := by have := Finset.mem_range.mp hx; omega
    subst hi0
    subst hx0
    norm_num [Finset.sum_range_succ, idMC9, ammSym, hmC9, ev1C9]
  have hrS : ∀ i ∈ Finset.range 1, rsC9 i * rsC9 i = truncKeep ev2C9 i := by
    intro i hi
    norm_num [rsC9, truncKeep, ev2C9, margEps]
  exact ⟨horth, hrS,
    (C9_marginalize_prior hmC9 (fun _ => 0) 1 1 idMC9 ev1C9 idMC9 ev2C9 rsC9
      (fun _ => 1/2) horth heig hrS).2.1⟩
